import Mathlib

/-!
Verification of the mtor BitTorrent client against its specification.

Each Go source function is shallowly embedded as an executable Lean
definition.  Bytes are modelled as `Nat` (values < 256 where the Go type
is `byte`), Go `int` as `Int` where negative values are reachable and as
`Nat` where they are not.  Fallible Go code returns `Except`/`Option`;
run-time panics are modelled as distinguished error constructors.
-/

/- ## pkg/bitfield (bitfield.go, struct version)

Go: `type Bitfield struct { bits []byte }`.  The byte slice is the state;
methods are embedded as functions from the byte list to results, with
`Set`/`Clear` returning the updated byte list. -/

namespace bitfield

/-- Embeds `Bitfield.indexOf`: returns `(atByte, byteOffset, inRange)`.
Go `/` and `%` on int truncate toward zero: `Int.tdiv`/`Int.tmod`. -/
def indexOf (bits : List Nat) (i : Int) : Int × Int × Bool :=
  (i.tdiv 8, i.tmod 8, decide (i.tdiv 8 > 0) && decide (i.tdiv 8 < bits.length))

/-- Embeds `Bitfield.Has`: `b.bits[atByte] >> (7-byteOffset) & 1 != 0`. -/
def Has (bits : List Nat) (i : Int) : Bool :=
  let r := indexOf bits i
  if r.2.2 then
    ((bits.getD r.1.toNat 0) >>> (7 - r.2.1.toNat)) &&& 1 != 0
  else
    false

/-- Embeds `Bitfield.Set`: `b.bits[atByte] |= 1 << (7 - byteOffset)`. -/
def Set (bits : List Nat) (i : Int) : List Nat :=
  let r := indexOf bits i
  if r.2.2 then
    bits.set r.1.toNat ((bits.getD r.1.toNat 0) ||| (1 <<< (7 - r.2.1.toNat)))
  else
    bits

/-- Embeds `Bitfield.Clear`: `b.bits[atByte] &^= 1 << (7 - byteOffset)`.
The uint8 AND-NOT of a mask `2^k` (k < 8) on a byte `< 256` is bitwise AND
with `255 ^^^ 2^k`. -/
def Clear (bits : List Nat) (i : Int) : List Nat :=
  let r := indexOf bits i
  if r.2.2 then
    bits.set r.1.toNat ((bits.getD r.1.toNat 0) &&& (255 ^^^ (1 <<< (7 - r.2.1.toNat))))
  else
    bits

end bitfield

/- ## pkg/message (message.go) -/

namespace message

/-- Message identifiers (Go `id` byte constants). -/
def Choke : Nat := 0

def UnChoke : Nat := 1

def Interested : Nat := 2

def NotInterested : Nat := 3

def Have : Nat := 4

def Bitfield : Nat := 5

def Request : Nat := 6

def Piece : Nat := 7

def Cancel : Nat := 8

/-- Embeds Go `message.Message`: identifier byte and payload bytes. -/
structure Message where
  Identifier : Nat
  Payload : List Nat
  deriving DecidableEq, Repr

/-- `binary.BigEndian.PutUint32`: 4 big-endian bytes of a uint32 value. -/
def be32enc (n : Nat) : List Nat :=
  [n / 2 ^ 24 % 256, n / 2 ^ 16 % 256, n / 2 ^ 8 % 256, n % 256]

/-- `binary.BigEndian.Uint32` on 4 bytes.  Go combines the bytes with
shifts and ORs; on byte inputs (< 256, guaranteed by the Go `[]byte`
type) that equals this sum. -/
def be32dec (bs : List Nat) : Nat :=
  (bs.getD 0 0) * 2 ^ 24 + (bs.getD 1 0) * 2 ^ 16 + (bs.getD 2 0) * 2 ^ 8 + bs.getD 3 0

/-- Run-time panics reachable in `Message.Serialize`: `sliceBounds` is
the `msg[:4]` slice-bounds panic when the allocated slice has fewer
than 4 bytes, `indexRange` the `msg[4]` index panic when it has exactly
4. -/
inductive SerPanic where
  | sliceBounds
  | indexRange
  deriving DecidableEq, Repr

/-- Embeds `Message.Serialize` for a non-nil receiver.  Go computes
`length := uint32(len(m.Payload) + 1)` — the `% 2^32` below — and the
size of `make([]byte, length+4)` in uint32 as well, so the size (the
repeated `(... + 4) % 2^32` expression) wraps once `length ≥ 2^32 - 4`:
`msg[:4]` then panics when the size is below 4, and `msg[4]` panics
when it is exactly 4.  Otherwise the frame is `[length] [id] [payload]`
where `copy(msg[5:], m.Payload)` writes `size - 5` payload bytes, equal
to `len(m.Payload)` whenever no wrap occurred.  (The Go nil-receiver
branch returns the 4-byte keep-alive frame and is not representable
here since Lean values are never nil.) -/
def serialize (m : Message) : Except SerPanic (List Nat) :=
  if ((m.Payload.length + 1) % 2 ^ 32 + 4) % 2 ^ 32 < 4 then .error .sliceBounds
  else if ((m.Payload.length + 1) % 2 ^ 32 + 4) % 2 ^ 32 < 5 then .error .indexRange
  else .ok (be32enc ((m.Payload.length + 1) % 2 ^ 32) ++
    m.Identifier :: m.Payload.take (((m.Payload.length + 1) % 2 ^ 32 + 4) % 2 ^ 32 - 5))

/-- Embeds `message.Read`.  The reader is the list of bytes available on
the connection; `io.ReadFull` failing (not enough bytes) is `.error`.
A zero length prefix is a keep-alive: Go returns `(nil, nil)`, modelled
as `.ok (none, rest)`. -/
def Read (input : List Nat) : Except Unit (Option Message × List Nat) :=
  match input with
  | b0 :: b1 :: b2 :: b3 :: rest =>
      let length := be32dec [b0, b1, b2, b3]
      if length = 0 then .ok (none, rest)
      else if rest.length < length then .error ()
      else
        let msgBuf := rest.take length
        .ok (some { Identifier := msgBuf.getD 0 0, Payload := msgBuf.drop 1 },
          rest.drop length)
  | _ => .error ()

/-- Embeds `message.NewReqest` (sic): request payload
`[index] [begin] [length]`, each 4 bytes big-endian. -/
def NewReqest (index begin length : Nat) : Message :=
  { Identifier := Request, Payload := be32enc index ++ be32enc begin ++ be32enc length }

/-- Embeds `message.ParseHave`: returns the piece index or an error. -/
def ParseHave (msg : Message) : Except Unit Nat :=
  if msg.Identifier ≠ Have then .error ()
  else if msg.Payload.length ≠ 4 then .error ()
  else .ok (be32dec msg.Payload)

/-- Embeds `message.ParsePiece`: validates the payload and copies the
block into the buffer, returning `(n, buf)² with `n = len(block)` and
the updated buffer.  Go `copy(buf[begin:], block)` copies `len(block)`
bytes, which the preceding bound checks make exact. -/
def ParsePiece (index : Nat) (buf : List Nat) (msg : Message) :
    Except Unit (Nat × List Nat) :=
  if msg.Identifier ≠ Piece then .error ()
  else if msg.Payload.length < 8 then .error ()
  else
    let recIndex := be32dec (msg.Payload.take 4)
    if recIndex ≠ index then .error ()
    else
      let begin := be32dec ((msg.Payload.drop 4).take 4)
      if begin ≥ buf.length then .error ()
      else
        let block := msg.Payload.drop 8
        if begin + block.length > buf.length then .error ()
        else
          .ok (block.length, buf.take begin ++ block ++ buf.drop (begin + block.length))

end message

/- ## pkg/peer (conn.go): getBitfield -/

namespace peer

/-- Result of `Conn.getBitfield`.  `goPanicNilDeref` marks the execution
path where Go dereferences the nil `*Message` returned by `message.Read`
for a keep-alive frame (`msg.Identifier` on `msg == nil`): a run-time
panic, which aborts `NewConn` for that session. -/
inductive GetBitfieldResult where
  | ok (bits : List Nat)
  | ioError
  | wrongMessage
  | goPanicNilDeref
  deriving DecidableEq, Repr

/-- Embeds `Conn.getBitfield`: read one message; expect id `Bitfield`.
Go checks `msg.Identifier != message.Bitfield` without a nil check, so a
keep-alive (Read returns `nil, nil`) dereferences nil and panics. -/
def getBitfield (input : List Nat) : GetBitfieldResult :=
  match message.Read input with
  | .error _ => .ioError
  | .ok (none, _) => .goPanicNilDeref
  | .ok (some m, _) =>
      if m.Identifier ≠ message.Bitfield then .wrongMessage
      else .ok m.Payload

end peer

/- ## internal/manager (piece.go) -/

namespace manager

/-- Embeds the `piece` manager struct: just the storage directory. -/
structure PieceMgr where
  src : String
  deriving DecidableEq, Repr

/-- Outcome of a manager operation: either the `ErrManagerClosed` early
return, or the filesystem operation the method proceeds to perform
(modelled symbolically: the claims only distinguish the closed-store
error from any other outcome). -/
inductive MgrOutcome where
  | errManagerClosed
  | fsOp
  deriving DecidableEq, Repr

/-- Embeds `piece.isClosed`: `p.src == ""`. -/
def isClosed (p : PieceMgr) : Bool :=
  p.src == ""

/-- Embeds `piece.Put`: closed check, then `os.WriteFile`. -/
def Put (p : PieceMgr) (_i : Nat) : MgrOutcome :=
  if isClosed p then .errManagerClosed else .fsOp

/-- Embeds `piece.Get`: closed check, then `os.ReadFile`. -/
def Get (p : PieceMgr) (_i : Nat) : MgrOutcome :=
  if isClosed p then .errManagerClosed else .fsOp

/-- Embeds `piece.Close`: closed check, then `os.RemoveAll(p.src)`.
Note the Go method never assigns to `p.src`, so the manager state after
a close is returned unchanged. -/
def Close (p : PieceMgr) : MgrOutcome × PieceMgr :=
  if isClosed p then (.errManagerClosed, p) else (.fsOp, p)

end manager

/- ## pkg/torrent (download.go): pieceLen -/

namespace torrent

/-- Embeds `Torrent.pieceLen`: `begin := index * PieceLength`,
`end := begin + PieceLength`; the last piece is irregular. -/
def pieceLen (pieceLength length : Int) (index : Int) : Int :=
  if index * pieceLength + pieceLength > length then length - index * pieceLength
  else pieceLength

/-- The claim computes the piece count as `ceil(Length / PieceLength)`. -/
def numPieces (length pieceLength : Nat) : Nat :=
  (length + pieceLength - 1) / pieceLength

/-- Embeds Go `torrent.piece` (a work item): index, expected SHA-1 hash
and length.  The hash is a 20-byte list. -/
structure piece where
  index : Nat
  hash : List Nat
  length : Int
  deriving DecidableEq, Repr

/-- The parts of `peer.Conn` the download loop reads and writes: the
choke flag and the peer bitfield.  The socket and identity fields are
I/O handles and constants, not modelled. -/
structure ConnState where
  Choked : Bool
  Bitfield : List Nat
  deriving DecidableEq, Repr

/-- Embeds Go `torrent.pieceProgress` (minus the conn pointer and the
constant index, which are passed separately). -/
structure pieceProgress where
  buf : List Nat
  downloaded : Int
  requested : Int
  backlog : Int
  deriving DecidableEq, Repr

/-- One result of `conn.Read()` as seen by `readMessage`: an I/O error,
a keep-alive (`nil` message), or a message. -/
inductive RMsg where
  | readErr
  | keepAlive
  | msg (m : message.Message)
  deriving DecidableEq, Repr

/-- Events of a piece download: a `request` sent on the wire
(`conn.Request(index, begin, size)`) or one `conn.Read()` result. -/
inductive Ev where
  | sent (index begin size : Int)
  | recv (m : RMsg)
  deriving DecidableEq, Repr

/-- Go `MaxBlockSize = 16384`. -/
def MaxBlockSize : Int := 16384

/-- The fresh progress built at the top of `downloadPiece`:
`make([]byte, p.length)` and zero counters. -/
def initProgress (length : Int) : pieceProgress :=
  { buf := List.replicate length.toNat 0, downloaded := 0, requested := 0, backlog := 0 }

/-- The block size for the next request: Go computes
`size := MaxBlockSize; if p.length - requested < size { size = ... }`,
i.e. `min(MaxBlockSize, length - requested)`. -/
def nextSize (length requested : Int) : Int :=
  if length - requested < MaxBlockSize then length - requested else MaxBlockSize

/-- Counter update after `conn.Request` succeeds:
`backlog++; requested += size`. -/
def afterRequest (pr : pieceProgress) (size : Int) : pieceProgress :=
  { pr with backlog := pr.backlog + 1, requested := pr.requested + size }

/-- Embeds the inner request loop of `downloadPiece`:
`for progress.backlog < d.config.Backlog && progress.requested < p.length`.
Returns the final progress, the request events sent, and a snapshot of
the progress after each request.  `fuel` only bounds the recursion;
callers pass `(length - requested).toNat + 1`, which is never exhausted
because every iteration increases `requested` by at least 1 (socket
write errors abort the piece early in Go and can only shorten the loop;
they are not modelled). -/
def fill : Nat → Int → Int → Int → pieceProgress →
    pieceProgress × List Ev × List pieceProgress
  | 0, _, _, _, pr => (pr, [], [])
  | Nat.succ f, B, index, length, pr =>
      if pr.backlog < B ∧ pr.requested < length then
        let r := fill f B index length (afterRequest pr (nextSize length pr.requested))
        (r.1, .sent index pr.requested (nextSize length pr.requested) :: r.2.1,
          afterRequest pr (nextSize length pr.requested) :: r.2.2)
      else (pr, [], [])

/-- Embeds `pieceProgress.readMessage`: reacts to one `conn.Read()`
result.  Parse failures of `Have`/`Piece` propagate as errors; other
identifiers are ignored. -/
def readMessage (index : Nat) (c : ConnState) (pr : pieceProgress) (m : RMsg) :
    Except Unit (ConnState × pieceProgress) :=
  match m with
  | .readErr => .error ()
  | .keepAlive => .ok (c, pr)
  | .msg msg =>
      if msg.Identifier = message.Choke then .ok ({ c with Choked := true }, pr)
      else if msg.Identifier = message.UnChoke then .ok ({ c with Choked := false }, pr)
      else if msg.Identifier = message.Have then
        match message.ParseHave msg with
        | .error _ => .error ()
        | .ok p => .ok ({ c with Bitfield := bitfield.Set c.Bitfield (p : Int) }, pr)
      else if msg.Identifier = message.Piece then
        match message.ParsePiece index pr.buf msg with
        | .error _ => .error ()
        | .ok (n, buf1) =>
            let pr1 : pieceProgress :=
              { buf := buf1, downloaded := pr.downloaded + (n : Int),
                requested := pr.requested, backlog := pr.backlog - 1 }
            .ok (c, pr1)
      else .ok (c, pr)

/-- Outcome of `downloadPiece`. -/
inductive DLOutcome where
  | ok (buf : List Nat) (c : ConnState)
  | err
  deriving DecidableEq, Repr

/-- The request phase of one loop iteration: Go sends requests only
inside `if !conn.Choked { ... }`. -/
def phase1 (B index length : Int) (c : ConnState) (pr : pieceProgress) :
    pieceProgress × List Ev × List pieceProgress :=
  if c.Choked then (pr, [], [])
  else fill ((length - pr.requested).toNat + 1) B index length pr

/-- Embeds the outer loop of `downloadPiece` driven by the list of
`conn.Read()` results: while `downloaded < length`, send requests when
not choked, then read one message.  An exhausted input list models a
read error (timeout / EOF).  Returns the outcome, the event trace, and
every intermediate progress snapshot (after each request and after each
processed message). -/
def downloadLoop (B : Int) (index : Nat) (length : Int) :
    ConnState → pieceProgress → List RMsg →
      DLOutcome × List Ev × List pieceProgress
  | c, pr, msgs =>
      if pr.downloaded < length then
        match msgs with
        | [] => (.err, [], [])
        | m :: rest =>
            match readMessage index c (phase1 B index length c pr).1 m with
            | .error _ =>
                (.err, (phase1 B index length c pr).2.1 ++ [.recv m],
                  (phase1 B index length c pr).2.2 ++ [(phase1 B index length c pr).1])
            | .ok (c2, pr2) =>
                let r := downloadLoop B index length c2 pr2 rest
                (r.1, (phase1 B index length c pr).2.1 ++ .recv m :: r.2.1,
                  (phase1 B index length c pr).2.2 ++
                    (phase1 B index length c pr).1 :: pr2 :: r.2.2)
      else (.ok pr.buf c, [], [])

/-- Embeds `checkIntegrity`: `p.hash == sha1.Sum(block)`.  The SHA-1
function itself is Go library code, passed as a parameter. -/
def checkIntegrity (sha1 : List Nat → List Nat) (p : piece) (block : List Nat) : Bool :=
  p.hash == sha1 block

/-- What `connectToPeer` does with one work item: requeue it and
continue the loop, requeue it and return (terminating the session), or
deliver the result and continue. -/
inductive WorkOutcome where
  | requeueContinue
  | requeueTerminate
  | deliverContinue
  deriving DecidableEq, Repr

/-- Embeds the body of the work loop in `connectToPeer` for one work
item:  skip pieces the peer lacks; on a download error requeue and
return; on an integrity failure requeue and continue; otherwise deliver
the piece. -/
def connectStep (sha1 : List Nat → List Nat) (B : Int) (c : ConnState)
    (p : piece) (msgs : List RMsg) : WorkOutcome × ConnState :=
  if bitfield.Has c.Bitfield (p.index : Int) = false then (.requeueContinue, c)
  else
    match (downloadLoop B p.index p.length c (initProgress p.length) msgs).1 with
    | .ok buf c2 =>
        if checkIntegrity sha1 p buf = false then (.requeueContinue, c2)
        else (.deliverContinue, c2)
    | .err => (.requeueTerminate, c)

/-- The spec's choke flag over an event trace: starts at `init`, set on
a received `choke`, cleared on a received `unchoke`. -/
def chokedStepEv (b : Bool) (e : Ev) : Bool :=
  match e with
  | .recv (.msg msg) =>
      if msg.Identifier = message.Choke then true
      else if msg.Identifier = message.UnChoke then false
      else b
  | _ => b

/-- Fold of `chokedStepEv` over a trace. -/
def chokedAfter (init : Bool) (evs : List Ev) : Bool :=
  evs.foldl chokedStepEv init

end torrent

/- ## pkg/bencode/scanner (scanner.go) and pkg/bencode/token (token.go)

Bytes are `Nat`; the Go rune `eof = -1` is modelled by `Option Nat` with
`none` for eof.  Character literals: 'd' = 100, 'l' = 108, 'i' = 105,
'e' = 101, ':' = 58, '-' = 45, '0' = 48, '9' = 57. -/

namespace scanner

/-- Embeds `token.Type` (field renamed `kind` here since the Go name is
`Type`). -/
inductive TokType where
  | ILLEGAL
  | NUMBER
  | STRING
  | DICT
  | LIST
  | END
  deriving DecidableEq, Repr

/-- Embeds `token.Token`. -/
structure Tok where
  kind : TokType
  Literal : List Nat
  Offset : Nat
  deriving DecidableEq, Repr

/-- Embeds `token.Token.RawString`: the part of the literal after the
first ':' (`strings.Cut(t.Literal, ":")`). -/
def rawString (lit : List Nat) : List Nat :=
  (lit.dropWhile (fun ch => ch ≠ 58)).drop 1

/-- Go byte-string comparison `a < b` (lexicographic byte order). -/
def goStrLt : List Nat → List Nat → Bool
  | _, [] => false
  | [], _ :: _ => true
  | a :: as1, b :: bs1 =>
      if a < b then true else if b < a then false else goStrLt as1 bs1

/-- Embeds `scanner.Scanner`.  The `ch` field is written by `next` but
never read by any other method, so it is dropped. -/
structure Scanner where
  Data : List Nat
  rdOffset : Nat
  offset : Nat
  Tokens : List Tok
  last : Tok
  deriving DecidableEq, Repr

/-- The zero `token.Token` that a fresh scanner's `last` holds. -/
def illegalTok : Tok := { kind := .ILLEGAL, Literal := [], Offset := 0 }

/-- Embeds `scanner.New`. -/
def mkScanner (data : List Nat) : Scanner :=
  { Data := data, rdOffset := 0, offset := 0, Tokens := [], last := illegalTok }

/-- Scan errors.  `synError` carries the message and offset of a Go
`*SyntaxError` (messages abbreviated; offsets faithful); `atoiRange` is
the `strconv.Atoi` out-of-range error returned by `scanStr`; `fuel` is
exhaustion of the recursion bound, unreachable from `Valid` because
every recursive step of the scanner consumes at least one byte. -/
inductive ScanErr where
  | synError (msg : String) (off : Nat)
  | atoiRange (off : Nat)
  | fuel
  deriving DecidableEq, Repr

/-- Embeds `Scanner.atEnd`. -/
def atEnd (s : Scanner) : Bool :=
  s.rdOffset ≥ s.Data.length

/-- Embeds `Scanner.peek`: `none` is Go's eof. -/
def peek (s : Scanner) : Option Nat :=
  if s.rdOffset < s.Data.length then some (s.Data.getD s.rdOffset 0) else none

/-- Advances the read offset by one. -/
def advance (s : Scanner) : Scanner :=
  { s with rdOffset := s.rdOffset + 1 }

/-- Embeds `Scanner.next`: advance unless at eof. -/
def next (s : Scanner) : Scanner :=
  if (peek s).isSome then advance s else s

/-- Embeds `Scanner.consume`. -/
def consume (s : Scanner) (r : Nat) : Bool × Scanner :=
  if peek s = some r then (true, next s) else (false, s)

/-- Embeds `Scanner.literal`: `s.Data[s.offset:s.rdOffset]`. -/
def literal (s : Scanner) : List Nat :=
  (s.Data.drop s.offset).take (s.rdOffset - s.offset)

/-- Embeds `Scanner.emit`. -/
def emit (t : TokType) (s : Scanner) : Scanner :=
  let tok : Tok := { kind := t, Literal := literal s, Offset := s.offset }
  { s with Tokens := s.Tokens ++ [tok], last := tok, offset := s.rdOffset }

/-- `unicode.IsDigit` on a byte. -/
def isDigit (r : Nat) : Bool :=
  decide (48 ≤ r ∧ r ≤ 57)

/-- `unicode.IsDigit` through `peek` (false at eof). -/
def isDigitO : Option Nat → Bool
  | some r => isDigit r
  | none => false

/-- The loop of `Scanner.scanNumber` together with the `consume(d)`
after it: scan digits until the delimiter `d` (consuming it) or eof
(error).  Fuel-bounded; callers pass more fuel than bytes remain. -/
def scanNumLoop : Nat → Nat → Scanner → Except ScanErr Scanner
  | 0, _, _ => .error .fuel
  | Nat.succ f, d, s =>
      match peek s with
      | none => .error (.synError "unexpected end of input while scanning number" s.rdOffset)
      | some r =>
          if r = d then .ok (next s)
          else if isDigit r then scanNumLoop f d (next s)
          else .error (.synError "invalid character in number literal" s.rdOffset)

/-- Embeds `Scanner.scanNumber` with delimiter `d`. -/
def scanNumber (d : Nat) (s0 : Scanner) : Except ScanErr Scanner :=
  let c := consume s0 45
  match peek c.2 with
  | none => .error (.synError "invalid character in number literal" c.2.rdOffset)
  | some r =>
      if r = d then .error (.synError "looking for a number" c.2.rdOffset)
      else if isDigit r = false then
        .error (.synError "invalid character in number literal" c.2.rdOffset)
      else if r = 48 then
        if c.1 then .error (.synError "leading 0 in negative number literal" c.2.rdOffset)
        else
          let s1 := next c.2
          match consume s1 d with
          | (true, s2) => .ok s2
          | (false, _) =>
              if isDigitO (peek s1) then
                .error (.synError "leading zero in number" s1.rdOffset)
              else .error (.synError "invalid character in number literal" s1.rdOffset)
      else scanNumLoop (c.2.Data.length - c.2.rdOffset + 1) d c.2

/-- Go `math.MaxInt64`, the bound of `strconv.Atoi` on 64-bit. -/
def maxInt64 : Nat := 9223372036854775807

/-- `strconv.Atoi` on the digit-only length literal of a string token:
the numeric value, or an out-of-range error beyond `maxInt64`. -/
def atoi (ds : List Nat) (off : Nat) : Except ScanErr Nat :=
  let v := ds.foldl (fun acc dg => acc * 10 + (dg - 48)) 0
  if v ≤ maxInt64 then .ok v else .error (.atoiRange off)

/-- Embeds `Scanner.scanStr`: length number, ':' delimiter, raw bytes. -/
def scanStr (s : Scanner) : Except ScanErr Scanner :=
  if isDigitO (peek s) = false then
    .error (.synError "looking for beginning of string" s.rdOffset)
  else
    match scanNumber 58 s with
    | .error e => .error e
    | .ok s1 =>
        match atoi (literal s1).dropLast s1.rdOffset with
        | .error e => .error e
        | .ok length =>
            if s1.Data.length - s1.rdOffset < length then
              .error (.synError "unexpected end of input while scanning string" s1.Data.length)
            else
              .ok (emit .STRING { s1 with rdOffset := s1.rdOffset + length })

/-- Embeds `Scanner.scanInt`: `i <number> e`. -/
def scanInt (s : Scanner) : Except ScanErr Scanner :=
  match consume s 105 with
  | (false, _) => .error (.synError "looking for beginning of integer" s.rdOffset)
  | (true, s1) =>
      match scanNumber 101 s1 with
      | .error e => .error e
      | .ok s2 => .ok (emit .NUMBER s2)

/-- Which Go scanner function is executing: `value` is `scanNext`'s
dispatch, `dloop prev first` is the entry loop of `scanDict` (with its
`prev`/`first` locals), `lloop` the loop of `scanList`.  A single
fuel-indexed function makes the mutual recursion structural. -/
inductive Mode where
  | value
  | dloop (prev : List Nat) (first : Bool)
  | lloop
  deriving DecidableEq, Repr

/-- Embeds `Scanner.scanNext` / `scanDict` / `scanList`.  Every
recursive step consumes at least one byte of input, so fuel
`|Data| + 1` (what `Valid` passes) is never exhausted. -/
def scan : Nat → Mode → Scanner → Except ScanErr Scanner
  | 0, _, _ => .error .fuel
  | Nat.succ f, .value, s =>
      match peek s with
      | some r =>
          if r = 100 then
            match consume s 100 with
            | (false, _) => .error (.synError "looking for beginning of dictionary" s.rdOffset)
            | (true, s1) => scan f (.dloop [] true) (emit .DICT s1)
          else if r = 108 then
            match consume s 108 with
            | (false, _) => .error (.synError "looking for beginning of list" s.rdOffset)
            | (true, s1) => scan f .lloop (emit .LIST s1)
          else if r = 105 then scanInt s
          else if isDigit r then scanStr s
          else .error (.synError "looking for beginning of value" s.rdOffset)
      | none => .error (.synError "unexpected end of input" s.rdOffset)
  | Nat.succ f, .dloop prev first, s =>
      match peek s with
      | none => .error (.synError "unexpected end of input while scanning dictionary" s.rdOffset)
      | some r =>
          if r = 101 then .ok (emit .END (next s))
          else
            match scanStr s with
            | .error e => .error e
            | .ok s1 =>
                if first = false ∧ goStrLt prev (rawString s1.last.Literal) = false then
                  .error (.synError "improper ordering of dictionary keys" s1.last.Offset)
                else
                  match scan f .value s1 with
                  | .error e => .error e
                  | .ok s2 => scan f (.dloop (rawString s1.last.Literal) false) s2
  | Nat.succ f, .lloop, s =>
      match peek s with
      | none => .error (.synError "unexpected end of input while scanning list" s.rdOffset)
      | some r =>
          if r = 101 then .ok (emit .END (next s))
          else
            match scan f .value s with
            | .error e => .error e
            | .ok s1 => scan f .lloop s1

/-- Embeds `Scanner.Valid`: scan one value, then require end of input.
Returns the error, `none` when the data is valid bencode. -/
def validErr (data : List Nat) : Option ScanErr :=
  match scan (data.length + 1) .value (mkScanner data) with
  | .error e => some e
  | .ok s =>
      if atEnd s = false then
        some (.synError "invalid character after top-level value" s.rdOffset)
      else none

/-- Embeds package-level `scanner.Valid`. -/
def Valid (data : List Nat) : Bool :=
  validErr data = none

/-- Runs `Scanner.Valid` and returns the final scanner (with its token
stream) on success; this is what `decoder.unmarshal` consumes. -/
def validSt (data : List Nat) : Except ScanErr Scanner :=
  match scan (data.length + 1) .value (mkScanner data) with
  | .error e => .error e
  | .ok s =>
      if atEnd s = false then
        .error (.synError "invalid character after top-level value" s.rdOffset)
      else .ok s

end scanner

/- ## Bencode value trees and their serialization

The claim about dictionary key ordering quantifies over serialized
bencode dictionaries.  That input space is represented by a value tree
(`Bencode`, the sum type of §3 of the spec) and its serialization
`encB`, which follows the bencode grammar the scanner parses
(`i<digits>e`, `<len>:<bytes>`, `l...e`, `d...e`) and emits dictionary
entries in the order given, so trees with mis-ordered keys serialize to
exactly the mis-ordered dictionary inputs the claim speaks about. -/

mutual

inductive Bencode where
  | int (n : Int)
  | str (bs : List Nat)
  | list (xs : BList)
  | dict (kvs : BKVs)

inductive BList where
  | nil
  | cons (v : Bencode) (xs : BList)

inductive BKVs where
  | nil
  | cons (k : List Nat) (v : Bencode) (xs : BKVs)

end

/-- Decimal digit bytes of `n`, most significant first (fuel-indexed so
that it is structural; `n + 1` fuel always suffices). -/
def digitsOfCore : Nat → Nat → List Nat
  | 0, _ => []
  | Nat.succ f, n => if n < 10 then [48 + n] else digitsOfCore f (n / 10) ++ [48 + n % 10]

/-- Decimal digit bytes of `n`. -/
def digitsOf (n : Nat) : List Nat :=
  digitsOfCore (n + 1) n

/-- Serialization of a bencode integer body: optional '-' and digits. -/
def encInt (n : Int) : List Nat :=
  if n < 0 then 45 :: digitsOf (-n).toNat else digitsOf n.toNat

/-- Serialization of a bencode string: `<len>:<bytes>`. -/
def encStr (bs : List Nat) : List Nat :=
  digitsOf bs.length ++ 58 :: bs

mutual

def encB : Bencode → List Nat
  | .int n => 105 :: (encInt n ++ [101])
  | .str bs => encStr bs
  | .list xs => 108 :: (encBL xs ++ [101])
  | .dict kvs => 100 :: (encBD kvs ++ [101])

def encBL : BList → List Nat
  | .nil => []
  | .cons v xs => encB v ++ encBL xs

def encBD : BKVs → List Nat
  | .nil => []
  | .cons k v xs => encStr k ++ (encB v ++ encBD xs)

end

/-- The keys of a dictionary tree, in emission order. -/
def keysOf : BKVs → List (List Nat)
  | .nil => []
  | .cons k _ xs => k :: keysOf xs

/-- All of `ks` strictly above `p` and strictly increasing, in Go's
byte-lexicographic order (the scanner's acceptance condition for the
tail of a dictionary's key list). -/
def sortedAbove (p : List Nat) : List (List Nat) → Bool
  | [] => true
  | k :: ks => scanner.goStrLt p k && sortedAbove k ks

/-- Strictly increasing key list. -/
def strictKeys : List (List Nat) → Bool
  | [] => true
  | k :: ks => sortedAbove k ks

/- Structural sizes driving the induction over value trees. -/
mutual

def sizeB : Bencode → Nat
  | .int _ => 1
  | .str _ => 1
  | .list xs => sizeBL xs + 1
  | .dict kvs => sizeBD kvs + 1

def sizeBL : BList → Nat
  | .nil => 0
  | .cons v xs => sizeB v + sizeBL xs + 1

def sizeBD : BKVs → Nat
  | .nil => 0
  | .cons _ v xs => sizeB v + sizeBD xs + 1

end

/- ## pkg/bencode decoder (decode.go, struct.go), struct targets

The decoder walks the token stream the scanner produced.  Only the
paths C3 exercises are embedded: `unmarshal` (scan + validate, then
`value`), `value`'s dispatch, `dict`'s struct branch, and the
interface-mode value decoders (`valueInterface` and friends), which
consume exactly the same tokens as the typed ones.  The map and
interface branches of `dict` are not modelled. -/

namespace bencode

/-- Decoder errors.  `goPanic` is Go `panic(syntaxPanicMsg)` — the
decoder's assertion that scanner-validated input cannot produce
unexpected tokens; `typeMismatch` stands for the `UnmarshalTypeError`
returns; `fuel` is unreachable (each loop step consumes a token). -/
inductive DecErr where
  | goPanic
  | typeMismatch
  | parseIntRange
  | scanError (e : scanner.ScanErr)
  | fuel
  deriving DecidableEq, Repr

/-- Embeds the `decoder` struct: token stream, offset, current token. -/
structure Dec where
  tokens : List scanner.Tok
  offset : Nat
  curr : scanner.Tok
  deriving DecidableEq, Repr

/-- Embeds `decoder.atEnd`. -/
def atEndD (d : Dec) : Bool :=
  d.offset ≥ d.tokens.length

/-- Embeds `decoder.peek`: the zero `ILLEGAL` token past the end. -/
def peekD (d : Dec) : scanner.Tok :=
  if atEndD d then scanner.illegalTok else d.tokens.getD d.offset scanner.illegalTok

/-- Embeds `decoder.next`. -/
def nextD (d : Dec) : Dec :=
  { d with curr := peekD d, offset := if atEndD d then d.offset else d.offset + 1 }

/-- Embeds `decoder.match`. -/
def matchD (d : Dec) (t : scanner.TokType) : Bool :=
  (peekD d).kind == t

/-- Embeds `decoder.consume`. -/
def consumeD (d : Dec) (t : scanner.TokType) : Bool × Dec :=
  if matchD d t then (true, nextD d) else (false, d)

/-- Embeds `token.Token.RawNumber`: strip the leading 'i' and trailing
'e' of a number literal. -/
def rawNumber (lit : List Nat) : List Nat :=
  (lit.drop 1).dropLast

/-- `strconv.ParseInt(lit, 10, 64)`: signed decimal with int64 bounds. -/
def parseInt64 (lit : List Nat) : Except DecErr Int :=
  match lit with
  | [] => .error .parseIntRange
  | 45 :: ds =>
      if ds ≠ [] ∧ ds.all scanner.isDigit then
        if ds.foldl (fun acc dg => acc * 10 + (dg - 48)) 0 ≤ 2 ^ 63 then
          .ok (-((ds.foldl (fun acc dg => acc * 10 + (dg - 48)) 0 : Nat) : Int))
        else .error .parseIntRange
      else .error .parseIntRange
  | ds =>
      if ds.all scanner.isDigit then
        if ds.foldl (fun acc dg => acc * 10 + (dg - 48)) 0 ≤ 2 ^ 63 - 1 then
          .ok ((ds.foldl (fun acc dg => acc * 10 + (dg - 48)) 0 : Nat) : Int)
        else .error .parseIntRange
      else .error .parseIntRange

/-- Embeds `decoder.numberInterface` (int64 by default). -/
def numberI (d : Dec) : Except DecErr (Bencode × Dec) :=
  match consumeD d .NUMBER with
  | (false, _) => .error .goPanic
  | (true, d1) =>
      match parseInt64 (rawNumber d1.curr.Literal) with
      | .error e => .error e
      | .ok n => .ok (.int n, d1)

/-- Embeds `decoder.stringInterface`. -/
def stringI (d : Dec) : Except DecErr (Bencode × Dec) :=
  match consumeD d .STRING with
  | (false, _) => .error .goPanic
  | (true, d1) => .ok (.str (scanner.rawString d1.curr.Literal), d1)

/-- Appends one key/value entry (Go inserts into a map; the scanner has
already enforced unique sorted keys, so an ordered list is equivalent). -/
def appendKV : BKVs → List Nat → Bencode → BKVs
  | .nil, k, v => .cons k v .nil
  | .cons k0 v0 t, k, v => .cons k0 v0 (appendKV t k v)

/-- Appends one list element. -/
def appendL : BList → Bencode → BList
  | .nil, v => .cons v .nil
  | .cons v0 t, v => .cons v0 (appendL t v)

mutual

/-- Embeds `decoder.valueInterface`: dispatch on the next token.  The
default case is Go `panic(syntaxPanicMsg)`. -/
def valueI : Nat → Dec → Except DecErr (Bencode × Dec)
  | 0, _ => .error .fuel
  | Nat.succ f, d =>
      match (peekD d).kind with
      | .DICT =>
          match consumeD d .DICT with
          | (false, _) => .error .goPanic
          | (true, d1) => dictILoop f d1 .nil
      | .LIST =>
          match consumeD d .LIST with
          | (false, _) => .error .goPanic
          | (true, d1) => listILoop f d1 .nil
      | .NUMBER => numberI d
      | .STRING => stringI d
      | _ => .error .goPanic

/-- The key/value loop of `decoder.dictInterface` (after its leading
`mustConsume(DICT)`), ending with `mustConsume(END)`. -/
def dictILoop : Nat → Dec → BKVs → Except DecErr (Bencode × Dec)
  | 0, _, _ => .error .fuel
  | Nat.succ f, d, acc =>
      match consumeD d .STRING with
      | (true, d1) =>
          match valueI f d1 with
          | .error e => .error e
          | .ok (v, d2) =>
              dictILoop f d2 (appendKV acc (scanner.rawString d1.curr.Literal) v)
      | (false, d0) =>
          match consumeD d0 .END with
          | (false, _) => .error .goPanic
          | (true, d1) => .ok (.dict acc, d1)

/-- The element loop of `decoder.listInterface`. -/
def listILoop : Nat → Dec → BList → Except DecErr (Bencode × Dec)
  | 0, _, _ => .error .fuel
  | Nat.succ f, d, acc =>
      match consumeD d .END with
      | (true, d1) => .ok (.list acc, d1)
      | (false, d0) =>
          match valueI f d0 with
          | .error e => .error e
          | .ok (v, d1) => listILoop f d1 (appendL acc v)

end

/-- Embeds `structFields` as built by `fields()`: the fields in
declaration order as `(name, struct index)` pairs, and the exact-match
name map. -/
structure GoStructFields where
  fields : List (List Nat × Nat)
  names : List (List Nat × Nat)
  deriving DecidableEq, Repr

/-- Exact-name lookup in `fs.names`. -/
def lookupName : List (List Nat × Nat) → List Nat → Option Nat
  | [], _ => none
  | (n, i) :: t, k => if n == k then some i else lookupName t k

/-- ASCII lower-casing of a byte. -/
def toLowerAscii (c : Nat) : Nat :=
  if 65 ≤ c ∧ c ≤ 90 then c + 32 else c

/-- `strings.EqualFold` restricted to ASCII names (all struct field
names and bencode keys in this repository are ASCII). -/
def equalFold (a b : List Nat) : Bool :=
  a.map toLowerAscii == b.map toLowerAscii

/-- The case-folded fallback scan over `fs.fields` (first match wins). -/
def findFoldIdx : List (List Nat × Nat) → List Nat → Option Nat
  | [], _ => none
  | (n, i) :: t, k => if equalFold k n then some i else findFoldIdx t k

/-- The struct branch of `decoder.dict` after its `mustConsume(DICT)`:
loop `for d.consume(token.STRING)`, resolving each key exactly then
case-folded; an unmatched key falls through WITHOUT consuming its value
(this is the code path under test); finally `mustConsume(token.END)`
panics if the next token is not `END`.  Field assignments are recorded
as `(struct index, decoded value)`; typed field decoding consumes the
same tokens as the interface decoders used here. -/
def dictStruct : Nat → Dec → GoStructFields → List (Nat × Bencode) →
    Except DecErr (List (Nat × Bencode) × Dec)
  | 0, _, _, _ => .error .fuel
  | Nat.succ f, d, fs, acc =>
      match consumeD d .STRING with
      | (false, d0) =>
          match consumeD d0 .END with
          | (false, _) => .error .goPanic
          | (true, d1) => .ok (acc, d1)
      | (true, d1) =>
          match lookupName fs.names (scanner.rawString d1.curr.Literal) with
          | some i =>
              match valueI f d1 with
              | .error e => .error e
              | .ok (v, d2) => dictStruct f d2 fs (acc ++ [(i, v)])
          | none =>
              match findFoldIdx fs.fields (scanner.rawString d1.curr.Literal) with
              | some i =>
                  match valueI f d1 with
                  | .error e => .error e
                  | .ok (v, d2) => dictStruct f d2 fs (acc ++ [(i, v)])
              | none => dictStruct f d1 fs acc

/-- Embeds `Unmarshal` into a struct target: `d.scanner.Valid()` then
`d.value(rv)`.  For a struct, a leading `DICT` token enters the struct
branch of `dict`; any other leading token ends in an
`UnmarshalTypeError` for the struct target. -/
def unmarshalStruct (data : List Nat) (fs : GoStructFields) :
    Except DecErr (List (Nat × Bencode)) :=
  match scanner.validSt data with
  | .error e => .error (.scanError e)
  | .ok s =>
      let d : Dec := { tokens := s.Tokens, offset := 0, curr := scanner.illegalTok }
      match (peekD d).kind with
      | .DICT =>
          match consumeD d .DICT with
          | (false, _) => .error .goPanic
          | (true, d1) =>
              match dictStruct (d.tokens.length + 1) d1 fs [] with
              | .error e => .error e
              | .ok (acc, _) => .ok acc
      | _ => .error .typeMismatch

end bencode

/- ## Theorems -/

/-- C1: the claimed bitfield law fails on the code.  With the one-byte
bitfield `[0]` and the in-range index `0` (`0 ≤ 0 < 8`), `Set 0` leaves
the bitfield unchanged and `Has 0` is `false`; even with the bit
physically set (`[128]`), `Has 0` is `false` and `Clear 0` is a no-op,
because `indexOf` computes `inRange = atByte > 0 && ...`, excluding the
whole first byte. -/
theorem c1_bitfield_byte0_unreachable :
    bitfield.Set [0] 0 = [0] ∧ bitfield.Has [0] 0 = false ∧
    bitfield.Has [128] 0 = false ∧ bitfield.Clear [128] 0 = [128] := by
  decide

/-- C4: the piece manager does not latch the closed state.  For an
initialized manager (`src = "d"`), `Close` succeeds (performs the
filesystem removal) yet returns the manager with `src` intact, so the
immediately following `Put`, `Get` and `Close` all take the
filesystem path instead of failing with `ErrManagerClosed`. -/
theorem c4_manager_not_latched :
    manager.Close { src := "d" } = (.fsOp, { src := "d" }) ∧
    manager.isClosed { src := "d" } = false ∧
    manager.Put { src := "d" } 0 ≠ .errManagerClosed ∧
    manager.Get { src := "d" } 0 ≠ .errManagerClosed ∧
    (manager.Close { src := "d" }).1 ≠ .errManagerClosed := by
  refine ⟨rfl, rfl, ?_, ?_, ?_⟩ <;> decide

/-- C5: if the first frame after the handshake is a keep-alive (4-byte
length prefix 0), `message.Read` returns a nil message with nil error,
and `getBitfield` then dereferences the nil pointer, so connection setup
panics instead of returning an error. -/
theorem c5_keepalive_nil_deref (rest : List Nat) :
    message.Read (0 :: 0 :: 0 :: 0 :: rest) = .ok (none, rest) ∧
    peer.getBitfield (0 :: 0 :: 0 :: 0 :: rest) = .goPanicNilDeref := by
  have hread : message.Read (0 :: 0 :: 0 :: 0 :: rest) = .ok (none, rest) := rfl
  refine ⟨hread, ?_⟩
  unfold peer.getBitfield
  rw [hread]

/-- Sum of `pieceLen` over a prefix of full-sized pieces. -/
theorem pieceLen_sum_full (PL L : Int) (hPL : 0 ≤ PL) (j : Nat)
    (h : ((j : Int)) * PL ≤ L) :
    ((List.range j).map (fun (i : Nat) => torrent.pieceLen PL L (i : Int))).sum =
      (j : Int) * PL := by
  induction j with
  | zero => simp
  | succ n ih =>
      have hn1 : ((n : Int)) * PL + PL ≤ L := by push_cast at h; linarith
      have hn : ((n : Int)) * PL ≤ L := by linarith
      have hlast : torrent.pieceLen PL L (n : Int) = PL := by
        unfold torrent.pieceLen
        rw [if_neg (by omega)]
      rw [List.range_succ, List.map_append, List.sum_append, ih hn]
      simp only [List.map_cons, List.map_nil, List.sum_cons, List.sum_nil, hlast]
      push_cast
      ring

/-- C9: for a torrent with positive piece length and total length and
`n = ceil(Length / PieceLength)` pieces, the piece lengths computed by
`pieceLen` sum to the total length. -/
theorem c9_pieceLen_sum (PL L : Nat) (hPL : 0 < PL) (hL : 0 < L) :
    ((List.range (torrent.numPieces L PL)).map
        (fun (i : Nat) => torrent.pieceLen (PL : Int) (L : Int) (i : Int))).sum =
      (L : Int) := by
  have hnval : torrent.numPieces L PL = (L - 1) / PL + 1 := by
    unfold torrent.numPieces
    have hsplit : L + PL - 1 = (L - 1) + PL := by omega
    rw [hsplit, Nat.add_div_right _ hPL]
  have hml : (L - 1) / PL * PL < L := by
    have := Nat.div_mul_le_self (L - 1) PL
    omega
  have hle2 : L ≤ (L - 1) / PL * PL + PL := by
    have hdm := Nat.div_add_mod (L - 1) PL
    rw [Nat.mul_comm] at hdm
    have hmod := Nat.mod_lt (L - 1) hPL
    omega
  set q := (L - 1) / PL with hq
  have hmltZ : ((q : Int)) * PL < L := by exact_mod_cast hml
  have hlastle : (L : Int) ≤ ((q : Int)) * PL + PL := by exact_mod_cast hle2
  have hfull : ((List.range q).map
      (fun (i : Nat) => torrent.pieceLen (PL : Int) (L : Int) (i : Int))).sum =
      (q : Int) * PL :=
    pieceLen_sum_full (PL : Int) (L : Int) (by positivity) q (le_of_lt hmltZ)
  have hlast : torrent.pieceLen (PL : Int) (L : Int) (q : Int) =
      (L : Int) - (q : Int) * PL := by
    unfold torrent.pieceLen
    by_cases hgt : ((q : Int)) * PL + PL > L
    · rw [if_pos hgt]
    · rw [if_neg hgt]
      omega
  rw [hnval, List.range_succ, List.map_append, List.sum_append, hfull]
  simp only [List.map_cons, List.map_nil, List.sum_cons, List.sum_nil, hlast]
  ring

/-- Witness for C9 at `PieceLength = 4`, `Length = 10` (3 pieces: 4+4+2). -/
theorem c9_pieceLen_sum_witness :
    0 < 4 ∧ 0 < 10 ∧
    ((List.range (torrent.numPieces 10 4)).map
        (fun (i : Nat) => torrent.pieceLen (4 : Int) (10 : Int) (i : Int))).sum =
      (10 : Int) :=
  ⟨by decide, by decide, c9_pieceLen_sum 4 10 (by decide) (by decide)⟩

/-- C10 counterexample: the claimed domain (any payload shorter than
`2^32 - 1` bytes) contains payload lengths `2^32 - 5 .. 2^32 - 2`, for
which the uint32 allocation size `length + 4` of `Serialize` wraps: at
length `2^32 - 5` the size wraps to 0 and `msg[:4]` panics with a
slice-bounds error, so `Serialize` produces no frame at all and no
round-trip happens.  The claim as stated is therefore false of the
code. -/
theorem c10_wire_roundtrip_counterexample :
    (2 ^ 32 - 5 : Nat) < 2 ^ 32 - 1 ∧
    message.serialize { Identifier := 7, Payload := List.replicate (2 ^ 32 - 5) 0 } =
      .error .sliceBounds := by
  constructor
  · norm_num
  · unfold message.serialize
    have hlen : ({ Identifier := 7, Payload := List.replicate (2 ^ 32 - 5) 0 } :
        message.Message).Payload.length = 2 ^ 32 - 5 := List.length_replicate _ _
    rw [hlen]
    norm_num

/-- C10 (amended): wire message round-trip on the domain where the Go
uint32 frame-size arithmetic does not wrap.  For every message whose
payload is shorter than `2^32 - 5` bytes (and identifier a byte),
`Message.Serialize` succeeds and produces the 4-byte big-endian length
prefix `len(payload) + 1` followed by the identifier and the payload,
and `message.Read` on that frame yields the same message with the
whole input consumed. -/
theorem c10_wire_roundtrip (m : message.Message)
    (hid : m.Identifier < 256) (hlen : m.Payload.length < 2 ^ 32 - 5) :
    message.serialize m =
      .ok (message.be32enc (m.Payload.length + 1) ++ m.Identifier :: m.Payload) ∧
    message.Read (message.be32enc (m.Payload.length + 1) ++ m.Identifier :: m.Payload) =
      .ok (some m, []) := by
  have hmod : (m.Payload.length + 1) % 2 ^ 32 = m.Payload.length + 1 :=
    Nat.mod_eq_of_lt (by omega)
  have hserialize : message.serialize m =
      .ok (message.be32enc (m.Payload.length + 1) ++ m.Identifier :: m.Payload) := by
    unfold message.serialize
    rw [hmod]
    have hmod2 : (m.Payload.length + 1 + 4) % 2 ^ 32 = m.Payload.length + 5 :=
      Nat.mod_eq_of_lt (by omega)
    rw [hmod2]
    rw [if_neg (by omega), if_neg (by omega)]
    have hsub : m.Payload.length + 5 - 5 = m.Payload.length := by omega
    rw [hsub, List.take_length]
  refine ⟨hserialize, ?_⟩
  simp only [message.be32enc, List.cons_append, List.nil_append]
  simp only [message.Read]
  have hdec : message.be32dec
      [(m.Payload.length + 1) / 2 ^ 24 % 256, (m.Payload.length + 1) / 2 ^ 16 % 256,
       (m.Payload.length + 1) / 2 ^ 8 % 256, (m.Payload.length + 1) % 256] =
      m.Payload.length + 1 := by
    simp only [message.be32dec, List.getD_cons_zero, List.getD_cons_succ]
    omega
  rw [hdec]
  rw [if_neg (by omega)]
  rw [if_neg (by simp)]
  have htake2 : (m.Identifier :: m.Payload).take (m.Payload.length + 1) =
      m.Identifier :: m.Payload := by
    apply List.take_of_length_le
    simp
  have hdrop2 : (m.Identifier :: m.Payload).drop (m.Payload.length + 1) = [] := by
    apply List.drop_eq_nil_of_le
    simp
  rw [htake2, hdrop2]
  simp

/-- Witness for C10 at a concrete piece message, with both hypotheses
discharged at the input. -/
theorem c10_wire_roundtrip_witness :
    (7 : Nat) < 256 ∧ ([1, 2, 3] : List Nat).length < 2 ^ 32 - 5 ∧
    (message.serialize { Identifier := 7, Payload := [1, 2, 3] } =
      .ok (message.be32enc (([1, 2, 3] : List Nat).length + 1) ++ 7 :: [1, 2, 3]) ∧
    message.Read (message.be32enc (([1, 2, 3] : List Nat).length + 1) ++ 7 :: [1, 2, 3]) =
      .ok (some { Identifier := 7, Payload := [1, 2, 3] }, [])) :=
  ⟨by decide, by decide,
    c10_wire_roundtrip { Identifier := 7, Payload := [1, 2, 3] } (by decide) (by decide)⟩

/-- The request loop increments `backlog` only under `backlog < B`, so
the final and every intermediate backlog stay at most `B`. -/
theorem fill_backlog_le (B index length : Int) :
    ∀ (fuel : Nat) (pr : torrent.pieceProgress), pr.backlog ≤ B →
      ((torrent.fill fuel B index length pr).1.backlog ≤ B ∧
        ∀ q ∈ (torrent.fill fuel B index length pr).2.2, q.backlog ≤ B) := by
  intro fuel
  induction fuel with
  | zero =>
      intro pr h
      exact ⟨h, by intro q hq; simp [torrent.fill] at hq⟩
  | succ f ih =>
      intro pr h
      simp only [torrent.fill]
      by_cases hc : pr.backlog < B ∧ pr.requested < length
      · rw [if_pos hc]
        have hb1 : (torrent.afterRequest pr
            (torrent.nextSize length pr.requested)).backlog ≤ B := by
          simp only [torrent.afterRequest]
          omega
        obtain ⟨ihf, ihs⟩ := ih (torrent.afterRequest pr (torrent.nextSize length pr.requested)) hb1
        refine ⟨ihf, ?_⟩
        intro q hq
        simp only [List.mem_cons] at hq
        rcases hq with rfl | hq
        · exact hb1
        · exact ihs q hq
      · rw [if_neg hc]
        exact ⟨h, by intro q hq; simp at hq⟩

/-- `phase1` version of the backlog bound. -/
theorem phase1_backlog_le (B index length : Int) (c : torrent.ConnState)
    (pr : torrent.pieceProgress) (h : pr.backlog ≤ B) :
    (torrent.phase1 B index length c pr).1.backlog ≤ B ∧
      ∀ q ∈ (torrent.phase1 B index length c pr).2.2, q.backlog ≤ B := by
  unfold torrent.phase1
  by_cases hch : c.Choked
  · rw [if_pos hch]
    exact ⟨h, by intro q hq; simp at hq⟩
  · rw [if_neg hch]
    exact fill_backlog_le B index length _ pr h

/-- `readMessage` never increases `backlog` (it decrements it on a piece
block) and updates the choke flag exactly as the spec flag does. -/
theorem readMessage_spec (index : Nat) (c : torrent.ConnState)
    (pr : torrent.pieceProgress) (m : torrent.RMsg) (c2 : torrent.ConnState)
    (pr2 : torrent.pieceProgress)
    (h : torrent.readMessage index c pr m = .ok (c2, pr2)) :
    pr2.backlog ≤ pr.backlog ∧
      c2.Choked = torrent.chokedStepEv c.Choked (.recv m) := by
  cases m with
  | readErr => simp [torrent.readMessage] at h
  | keepAlive =>
      simp only [torrent.readMessage, Except.ok.injEq, Prod.mk.injEq] at h
      obtain ⟨rfl, rfl⟩ := h
      exact ⟨le_refl _, rfl⟩
  | msg msg =>
      simp only [torrent.readMessage] at h
      by_cases h0 : msg.Identifier = message.Choke
      · rw [if_pos h0] at h
        simp only [Except.ok.injEq, Prod.mk.injEq] at h
        obtain ⟨hc, rfl⟩ := h
        refine ⟨le_refl _, ?_⟩
        rw [← hc]
        simp [torrent.chokedStepEv, h0]
      · rw [if_neg h0] at h
        by_cases h1 : msg.Identifier = message.UnChoke
        · rw [if_pos h1] at h
          simp only [Except.ok.injEq, Prod.mk.injEq] at h
          obtain ⟨hc, rfl⟩ := h
          refine ⟨le_refl _, ?_⟩
          rw [← hc]
          simp [torrent.chokedStepEv, h0, h1, message.Choke, message.UnChoke]
        · rw [if_neg h1] at h
          by_cases h2 : msg.Identifier = message.Have
          · rw [if_pos h2] at h
            cases hph : message.ParseHave msg with
            | error e => rw [hph] at h; simp at h
            | ok p =>
                rw [hph] at h
                simp only [Except.ok.injEq, Prod.mk.injEq] at h
                obtain ⟨hc, rfl⟩ := h
                refine ⟨le_refl _, ?_⟩
                rw [← hc]
                simp [torrent.chokedStepEv, h0, h1]
          · rw [if_neg h2] at h
            by_cases h3 : msg.Identifier = message.Piece
            · rw [if_pos h3] at h
              cases hpp : message.ParsePiece index pr.buf msg with
              | error e => rw [hpp] at h; simp at h
              | ok nb =>
                  rw [hpp] at h
                  simp only [Except.ok.injEq, Prod.mk.injEq] at h
                  obtain ⟨rfl, rfl⟩ := h
                  refine ⟨?_, ?_⟩
                  · show pr.backlog - 1 ≤ pr.backlog
                    omega
                  · simp [torrent.chokedStepEv, h0, h1]
            · rw [if_neg h3] at h
              simp only [Except.ok.injEq, Prod.mk.injEq] at h
              obtain ⟨rfl, rfl⟩ := h
              refine ⟨le_refl _, ?_⟩
              simp [torrent.chokedStepEv, h0, h1]

/-- Backlog invariant over the whole download loop: every recorded
snapshot has `backlog ≤ B`, provided it starts that way. -/
theorem downloadLoop_backlog_le (B : Int) (index : Nat) (length : Int) :
    ∀ (msgs : List torrent.RMsg) (c : torrent.ConnState)
      (pr : torrent.pieceProgress), pr.backlog ≤ B →
      ∀ q ∈ (torrent.downloadLoop B index length c pr msgs).2.2, q.backlog ≤ B := by
  intro msgs
  induction msgs with
  | nil =>
      intro c pr h q hq
      simp only [torrent.downloadLoop] at hq
      split at hq <;> simp at hq
  | cons m rest ih =>
      intro c pr h q hq
      simp only [torrent.downloadLoop] at hq
      split at hq
      case isTrue hd =>
        obtain ⟨hph1, hph2⟩ := phase1_backlog_le B index length c pr h
        cases hrm : torrent.readMessage index c (torrent.phase1 B index length c pr).1 m with
        | error e =>
            rw [hrm] at hq
            simp only [List.mem_append, List.mem_singleton] at hq
            rcases hq with hq | rfl
            · exact hph2 q hq
            · exact hph1
        | ok cp =>
            obtain ⟨c2, pr2⟩ := cp
            rw [hrm] at hq
            simp only [List.mem_append, List.mem_cons] at hq
            rcases hq with hq | rfl | rfl | hq
            · exact hph2 q hq
            · exact hph1
            · exact le_trans (readMessage_spec index c _ m c2 q hrm).1 hph1
            · exact ih c2 pr2 (le_trans (readMessage_spec index c _ m c2 pr2 hrm).1 hph1) q hq
      case isFalse hd => simp at hq

/-- C6: with a non-negative configured backlog limit `B`, the invariant
`backlog ≤ B` holds at every point of the `downloadPiece` loop (after
every request sent and after every message processed), for every
incoming message sequence. -/
theorem c6_backlog_invariant (B : Int) (hB : 0 ≤ B) (index : Nat) (length : Int)
    (c : torrent.ConnState) (msgs : List torrent.RMsg) :
    ∀ q ∈ (torrent.downloadLoop B index length c
        (torrent.initProgress length) msgs).2.2, q.backlog ≤ B :=
  downloadLoop_backlog_le B index length msgs c (torrent.initProgress length) hB

/-- Witness for C6: limit 5, one-byte piece, unchoke then keep-alive. -/
theorem c6_backlog_invariant_witness :
    (0 : Int) ≤ 5 ∧
    ∀ q ∈ (torrent.downloadLoop 5 0 1 { Choked := true, Bitfield := [] }
        (torrent.initProgress 1)
        [torrent.RMsg.msg { Identifier := 1, Payload := [] },
          torrent.RMsg.keepAlive]).2.2, q.backlog ≤ 5 :=
  ⟨by decide,
    c6_backlog_invariant 5 (by decide) 0 1 { Choked := true, Bitfield := [] }
      [torrent.RMsg.msg { Identifier := 1, Payload := [] }, torrent.RMsg.keepAlive]⟩

/-- Every event emitted by the request loop is a `sent` event. -/
theorem fill_events_sent (B index length : Int) :
    ∀ (fuel : Nat) (pr : torrent.pieceProgress) (ev : torrent.Ev),
      ev ∈ (torrent.fill fuel B index length pr).2.1 →
      ∃ a b s, ev = torrent.Ev.sent a b s := by
  intro fuel
  induction fuel with
  | zero => intro pr ev he; simp [torrent.fill] at he
  | succ f ih =>
      intro pr ev he
      simp only [torrent.fill] at he
      by_cases hc : pr.backlog < B ∧ pr.requested < length
      · rw [if_pos hc] at he
        simp only [List.mem_cons] at he
        rcases he with rfl | he
        · exact ⟨index, pr.requested, torrent.nextSize length pr.requested, rfl⟩
        · exact ih _ ev he
      · rw [if_neg hc] at he
        simp at he

/-- A trace of pure `sent` events leaves the spec choke flag unchanged. -/
theorem chokedAfter_sent :
    ∀ (evs : List torrent.Ev) (init : Bool),
      (∀ ev ∈ evs, ∃ a b s, ev = torrent.Ev.sent a b s) →
      torrent.chokedAfter init evs = init := by
  intro evs
  induction evs with
  | nil => intro init _; rfl
  | cons ev t iht =>
      intro init h
      obtain ⟨a, b, s, rfl⟩ := h ev (List.mem_cons_self ev t)
      have hstep : torrent.chokedAfter init (torrent.Ev.sent a b s :: t) =
          torrent.chokedAfter init t := rfl
      rw [hstep]
      exact iht init (fun x hx => h x (List.mem_cons_of_mem _ hx))

/-- `phase1` emits only `sent` events. -/
theorem phase1_events_sent (B index length : Int) (c : torrent.ConnState)
    (pr : torrent.pieceProgress) :
    ∀ ev ∈ (torrent.phase1 B index length c pr).2.1,
      ∃ a b s, ev = torrent.Ev.sent a b s := by
  intro ev he
  unfold torrent.phase1 at he
  by_cases hch : c.Choked
  · rw [if_pos hch] at he; simp at he
  · rw [if_neg hch] at he
    exact fill_events_sent B index length _ pr ev he

/-- When the connection is choked, `phase1` does nothing. -/
theorem phase1_choked_nil (B index length : Int) (c : torrent.ConnState)
    (pr : torrent.pieceProgress) (h : c.Choked = true) :
    torrent.phase1 B index length c pr = (pr, [], []) := by
  simp [torrent.phase1, h]

/-- `chokedAfter` distributes over list append. -/
theorem chokedAfter_append (init : Bool) (l1 l2 : List torrent.Ev) :
    torrent.chokedAfter init (l1 ++ l2) =
      torrent.chokedAfter (torrent.chokedAfter init l1) l2 :=
  List.foldl_append _ _ _ _

/-- Core temporal property behind C7: in any run of the download loop,
every `sent` event in the trace occurs at a point where the spec choke
flag (folded from the initial flag over the preceding trace) is false. -/
theorem downloadLoop_sent_unchoked (B : Int) (index : Nat) (length : Int) :
    ∀ (msgs : List torrent.RMsg) (c : torrent.ConnState)
      (pr : torrent.pieceProgress) (i : Nat) (a bg s : Int),
      (torrent.downloadLoop B index length c pr msgs).2.1.get? i =
        some (torrent.Ev.sent a bg s) →
      torrent.chokedAfter c.Choked
        ((torrent.downloadLoop B index length c pr msgs).2.1.take i) = false := by
  intro msgs
  induction msgs with
  | nil =>
      intro c pr i a bg s h
      simp only [torrent.downloadLoop] at h
      split at h <;> simp at h
  | cons m rest ih =>
      intro c pr i a bg s h
      simp only [torrent.downloadLoop] at h ⊢
      by_cases hd : pr.downloaded < length
      case neg =>
        rw [if_neg hd] at h
        simp at h
      case pos =>
      rw [if_pos hd] at h ⊢
      cases hrm : torrent.readMessage index c (torrent.phase1 B index length c pr).1 m with
      | error err =>
          rw [hrm] at h
          dsimp only at h ⊢
          by_cases hi : i < (torrent.phase1 B index length c pr).2.1.length
          · rw [List.take_append_of_le_length (le_of_lt hi)]
            rw [chokedAfter_sent _ c.Choked
              (fun x hx => phase1_events_sent B index length c pr x
                (List.take_subset i _ hx))]
            by_contra hcc
            have hch : c.Choked = true := by
              revert hcc; cases c.Choked <;> simp
            rw [phase1_choked_nil B index length c pr hch] at hi
            simp at hi
          · rw [List.get?_append_right (le_of_not_lt hi)] at h
            rcases Nat.lt_or_ge (i - (torrent.phase1 B index length c pr).2.1.length) 1
              with hj | hj
            · have hj0 : i - (torrent.phase1 B index length c pr).2.1.length = 0 := by
                omega
              rw [hj0] at h
              simp at h
            · rw [List.get?_eq_none.2 (by simp; omega)] at h
              simp at h
      | ok cp =>
          obtain ⟨c2, pr2⟩ := cp
          rw [hrm] at h
          dsimp only at h ⊢
          by_cases hi : i < (torrent.phase1 B index length c pr).2.1.length
          · rw [List.take_append_of_le_length (le_of_lt hi)]
            rw [chokedAfter_sent _ c.Choked
              (fun x hx => phase1_events_sent B index length c pr x
                (List.take_subset i _ hx))]
            by_contra hcc
            have hch : c.Choked = true := by
              revert hcc; cases c.Choked <;> simp
            rw [phase1_choked_nil B index length c pr hch] at hi
            simp at hi
          · rw [List.get?_append_right (le_of_not_lt hi)] at h
            rw [List.take_append_eq_append_take,
              List.take_of_length_le (le_of_not_lt hi), chokedAfter_append]
            rw [chokedAfter_sent _ c.Choked (phase1_events_sent B index length c pr)]
            rcases Nat.lt_or_ge (i - (torrent.phase1 B index length c pr).2.1.length) 1
              with hj | hj
            · have hj0 : i - (torrent.phase1 B index length c pr).2.1.length = 0 := by
                omega
              rw [hj0] at h
              simp at h
            · obtain ⟨j, hj2⟩ : ∃ j,
                  i - (torrent.phase1 B index length c pr).2.1.length = j + 1 :=
                ⟨i - (torrent.phase1 B index length c pr).2.1.length - 1, by omega⟩
              rw [hj2] at h ⊢
              have hcons : (torrent.Ev.recv m ::
                  (torrent.downloadLoop B index length c2 pr2 rest).2.1).get? (j + 1) =
                  (torrent.downloadLoop B index length c2 pr2 rest).2.1.get? j := rfl
              rw [hcons] at h
              have htk : (torrent.Ev.recv m ::
                  (torrent.downloadLoop B index length c2 pr2 rest).2.1).take (j + 1) =
                  torrent.Ev.recv m ::
                    (torrent.downloadLoop B index length c2 pr2 rest).2.1.take j := rfl
              rw [htk]
              have hstep : torrent.chokedAfter c.Choked
                  (torrent.Ev.recv m ::
                    (torrent.downloadLoop B index length c2 pr2 rest).2.1.take j) =
                  torrent.chokedAfter (torrent.chokedStepEv c.Choked (.recv m))
                    ((torrent.downloadLoop B index length c2 pr2 rest).2.1.take j) := rfl
              rw [hstep,
                ← (readMessage_spec index c (torrent.phase1 B index length c pr).1 m
                    c2 pr2 hrm).2]
              exact ih c2 pr2 j a bg s h

/-- C7: in every piece download, no request message is sent while the
connection's choked flag is true: the flag starts true at connection
setup (`NewConn` sets `Choked: true`), is set on a received choke and
cleared on a received unchoke, and every `sent` event in the trace
occurs at a point where that flag, folded over the preceding trace, is
false. -/
theorem c7_no_request_while_choked (B : Int) (index : Nat) (length : Int)
    (bits : List Nat) (msgs : List torrent.RMsg) (i : Nat) (a bg s : Int)
    (h : (torrent.downloadLoop B index length { Choked := true, Bitfield := bits }
        (torrent.initProgress length) msgs).2.1.get? i =
      some (torrent.Ev.sent a bg s)) :
    torrent.chokedAfter true
      ((torrent.downloadLoop B index length { Choked := true, Bitfield := bits }
        (torrent.initProgress length) msgs).2.1.take i) = false :=
  downloadLoop_sent_unchoked B index length msgs
    { Choked := true, Bitfield := bits } (torrent.initProgress length) i a bg s h

/-- Witness for C7: after an unchoke, the first request is sent with the
spec flag false. -/
theorem c7_no_request_while_choked_witness :
    (torrent.downloadLoop 5 0 1 { Choked := true, Bitfield := [] }
        (torrent.initProgress 1)
        [torrent.RMsg.msg { Identifier := 1, Payload := [] },
          torrent.RMsg.keepAlive]).2.1.get? 1 =
      some (torrent.Ev.sent 0 0 1) ∧
    torrent.chokedAfter true
      ((torrent.downloadLoop 5 0 1 { Choked := true, Bitfield := [] }
        (torrent.initProgress 1)
        [torrent.RMsg.msg { Identifier := 1, Payload := [] },
          torrent.RMsg.keepAlive]).2.1.take 1) = false :=
  ⟨by decide,
    c7_no_request_while_choked 5 0 1 []
      [torrent.RMsg.msg { Identifier := 1, Payload := [] }, torrent.RMsg.keepAlive]
      1 0 0 1 (by decide)⟩

/-- A stand-in SHA-1 whose digest never matches the expected hash used
in the C2 scenario. -/
def shaStub : List Nat → List Nat := fun _ => List.replicate 20 0

/-- A one-byte piece (index 8 so that the bitfield lookup is in the
code's reachable range) whose expected hash cannot match `shaStub`. -/
def badPiece : torrent.piece :=
  { index := 8, hash := List.replicate 20 1, length := 1 }

/-- A freshly connected peer advertising piece 8. -/
def peerConn : torrent.ConnState :=
  { Choked := true, Bitfield := [0, 128] }

/-- One incoming message: the full (bad) block for piece 8. -/
def pieceMsgs : List torrent.RMsg :=
  [torrent.RMsg.msg { Identifier := 7, Payload := [0, 0, 0, 8, 0, 0, 0, 0, 42] }]

/-- C2 counterexample: a session whose downloaded piece fails the
integrity check requeues the piece and CONTINUES with the next work
item; it does not terminate.  At this concrete input the download
succeeds, the hash check fails, and `connectToPeer`'s loop body takes
the `continue` path, refuting the claim that it terminates. -/
theorem c2_integrity_counterexample :
    torrent.checkIntegrity shaStub badPiece [42] = false ∧
    (torrent.downloadLoop 5 badPiece.index badPiece.length peerConn
        (torrent.initProgress badPiece.length) pieceMsgs).1 =
      torrent.DLOutcome.ok [42] peerConn ∧
    torrent.connectStep shaStub 5 peerConn badPiece pieceMsgs =
      (torrent.WorkOutcome.requeueContinue, peerConn) ∧
    (torrent.connectStep shaStub 5 peerConn badPiece pieceMsgs).1 ≠
      torrent.WorkOutcome.requeueTerminate := by
  refine ⟨by decide, by decide, by decide, by decide⟩

/-- C2 (amended): when the downloaded bytes of a work item fail the
SHA-1 integrity check, the session requeues the piece and continues
with the next work item (`d.work <- piece; continue`); only download
I/O errors terminate the session. -/
theorem c2_integrity_requeue_continue (sha1 : List Nat → List Nat) (B : Int)
    (c : torrent.ConnState) (p : torrent.piece) (msgs : List torrent.RMsg)
    (buf : List Nat) (c2 : torrent.ConnState)
    (hhas : bitfield.Has c.Bitfield (p.index : Int) = true)
    (hdl : (torrent.downloadLoop B p.index p.length c
        (torrent.initProgress p.length) msgs).1 = .ok buf c2)
    (hbad : torrent.checkIntegrity sha1 p buf = false) :
    torrent.connectStep sha1 B c p msgs =
      (torrent.WorkOutcome.requeueContinue, c2) := by
  unfold torrent.connectStep
  rw [hhas]
  rw [if_neg (by simp)]
  rw [hdl]
  dsimp only
  rw [hbad]
  simp

/-- Witness for C2's amended claim at the concrete scenario. -/
theorem c2_integrity_requeue_continue_witness :
    bitfield.Has peerConn.Bitfield ((badPiece.index : Nat) : Int) = true ∧
    torrent.connectStep shaStub 5 peerConn badPiece pieceMsgs =
      (torrent.WorkOutcome.requeueContinue, peerConn) :=
  ⟨by decide,
    c2_integrity_requeue_continue shaStub 5 peerConn badPiece pieceMsgs [42] peerConn
      (by decide) (by decide) (by decide)⟩

/-- Peeking a scanner whose remaining input starts with `c` yields `c`. -/
theorem scanner_peek_cons {s : scanner.Scanner} {c : Nat} {t : List Nat}
    (h : s.Data.drop s.rdOffset = c :: t) : scanner.peek s = some c := by
  have hlt : s.rdOffset < s.Data.length := by
    by_contra hge
    rw [List.drop_eq_nil_of_le (le_of_not_lt hge)] at h
    simp at h
  unfold scanner.peek
  rw [if_pos hlt]
  have hh : (s.Data.drop s.rdOffset).head? = some c := by rw [h]; rfl
  rw [List.head?_drop] at hh
  have hgd : s.Data.getD s.rdOffset 0 = c := by
    unfold List.getD
    rw [List.get?_eq_getElem?, hh]
    rfl
  rw [hgd]

/-- Peeking at exhausted input yields eof. -/
theorem scanner_peek_nil {s : scanner.Scanner}
    (h : s.Data.drop s.rdOffset = []) : scanner.peek s = none := by
  have hge : s.Data.length ≤ s.rdOffset := by
    by_contra hlt
    have hlen : (s.Data.drop s.rdOffset).length = s.Data.length - s.rdOffset :=
      List.length_drop _ _
    rw [h] at hlen
    simp at hlen
    omega
  unfold scanner.peek
  rw [if_neg (by omega)]

/-- `next` advances when input remains. -/
theorem scanner_next_cons {s : scanner.Scanner} {c : Nat} {t : List Nat}
    (h : s.Data.drop s.rdOffset = c :: t) : scanner.next s = scanner.advance s := by
  unfold scanner.next
  rw [scanner_peek_cons h]
  rfl

/-- Advancing consumes the head of the remaining input. -/
theorem scanner_drop_advance {s : scanner.Scanner} {c : Nat} {t : List Nat}
    (h : s.Data.drop s.rdOffset = c :: t) :
    (scanner.advance s).Data.drop (scanner.advance s).rdOffset = t := by
  show s.Data.drop (s.rdOffset + 1) = t
  rw [← List.drop_drop 1 s.rdOffset, h]
  simp

/-- `consume` succeeds on the head of the remaining input. -/
theorem scanner_consume_pos {s : scanner.Scanner} {c : Nat} {t : List Nat}
    (h : s.Data.drop s.rdOffset = c :: t) :
    scanner.consume s c = (true, scanner.advance s) := by
  unfold scanner.consume
  rw [scanner_peek_cons h, if_pos rfl, scanner_next_cons h]

/-- `consume` fails on a non-matching head. -/
theorem scanner_consume_neg {s : scanner.Scanner} {c r : Nat} {t : List Nat}
    (h : s.Data.drop s.rdOffset = c :: t) (hne : c ≠ r) :
    scanner.consume s r = (false, s) := by
  unfold scanner.consume
  rw [scanner_peek_cons h, if_neg (by simp [hne])]

/-- Digit lists produced by `digitsOfCore`: all decimal digit bytes,
non-empty, folding back to the value, and no leading '0' for positive
values. -/
theorem digitsOfCore_spec :
    ∀ (f n : Nat), n < f →
      (∀ c ∈ digitsOfCore f n, 48 ≤ c ∧ c ≤ 57) ∧
      digitsOfCore f n ≠ [] ∧
      (digitsOfCore f n).foldl (fun acc dg => acc * 10 + (dg - 48)) 0 = n ∧
      (0 < n → (digitsOfCore f n).head? ≠ some 48) := by
  intro f
  induction f with
  | zero => intro n h; omega
  | succ f ih =>
      intro n h
      by_cases h10 : n < 10
      · simp only [digitsOfCore, if_pos h10]
        refine ⟨?_, by simp, by simp, ?_⟩
        · intro c hc
          simp at hc
          omega
        · intro hn
          simp
          omega
      · simp only [digitsOfCore, if_neg h10]
        have hrec : n / 10 < f := by
          have hlt : n / 10 < n := Nat.div_lt_self (by omega) (by omega)
          omega
        obtain ⟨hdig, hne, hval, hhead⟩ := ih (n / 10) hrec
        refine ⟨?_, by simp, ?_, ?_⟩
        · intro c hc
          rw [List.mem_append] at hc
          rcases hc with hc | hc
          · exact hdig c hc
          · simp at hc
            have hm := Nat.mod_lt n (show 0 < 10 by omega)
            omega
        · rw [List.foldl_append, hval]
          simp
          have hdm := Nat.div_add_mod n 10
          omega
        · intro _
          have h0 : 0 < n / 10 := Nat.div_pos (by omega) (by omega)
          cases hdc : digitsOfCore f (n / 10) with
          | nil => exact absurd hdc hne
          | cons a l =>
              rw [hdc] at hhead
              simp at hhead ⊢
              exact hhead h0

/-- `digitsOf` produces decimal digit bytes. -/
theorem digitsOf_digits {n : Nat} : ∀ c ∈ digitsOf n, 48 ≤ c ∧ c ≤ 57 :=
  (digitsOfCore_spec (n + 1) n (by omega)).1

/-- `digitsOf` is never empty. -/
theorem digitsOf_ne_nil {n : Nat} : digitsOf n ≠ [] :=
  (digitsOfCore_spec (n + 1) n (by omega)).2.1

/-- Folding the digits back (the `strconv.Atoi` accumulator) recovers `n`. -/
theorem digitsOf_val {n : Nat} :
    (digitsOf n).foldl (fun acc dg => acc * 10 + (dg - 48)) 0 = n :=
  (digitsOfCore_spec (n + 1) n (by omega)).2.2.1

/-- Positive values have no leading '0'. -/
theorem digitsOf_head_ne48 {n : Nat} (hn : 0 < n) : (digitsOf n).head? ≠ some 48 :=
  (digitsOfCore_spec (n + 1) n (by omega)).2.2.2 hn

/-- `digitsOf 0` is the single byte '0'. -/
theorem digitsOf_zero : digitsOf 0 = [48] := rfl

/-- `RawString` of a serialized string literal is the raw byte string. -/
theorem rawString_encStr (k : List Nat) : scanner.rawString (encStr k) = k := by
  unfold scanner.rawString encStr
  have hall : ∀ c ∈ digitsOf k.length, (fun ch => decide (ch ≠ 58)) c = true := by
    intro c hc
    have := digitsOf_digits c hc
    simp
    omega
  rw [List.dropWhile_append]
  rw [if_pos (by
    rw [List.isEmpty_iff, List.dropWhile_eq_nil_iff]
    exact fun c hc => hall c hc)]
  have h58 : List.dropWhile (fun ch => decide (ch ≠ 58)) (58 :: k) = 58 :: k := by
    rw [List.dropWhile_cons_of_neg (by simp)]
  rw [h58]
  simp

/-- Every serialized value starts with a byte identifying its kind, and
never with 'e'. -/
theorem encB_head (v : Bencode) :
    ∃ c t, encB v = c :: t ∧
      (c = 100 ∨ c = 105 ∨ c = 108 ∨ (48 ≤ c ∧ c ≤ 57)) := by
  cases v with
  | int n => exact ⟨105, _, rfl, by omega⟩
  | str bs =>
      cases hdg : digitsOf bs.length with
      | nil => exact absurd hdg digitsOf_ne_nil
      | cons a l =>
          refine ⟨a, l ++ 58 :: bs, ?_, ?_⟩
          · show encStr bs = a :: (l ++ 58 :: bs)
            unfold encStr
            rw [hdg]
            rfl
          · have := digitsOf_digits a (by rw [hdg]; simp)
            omega
  | list xs => exact ⟨108, _, rfl, by omega⟩
  | dict kvs => exact ⟨100, _, rfl, by omega⟩

/-- Two scanner states differing only in an equal read offset are equal. -/
theorem scanner_rdOffset_ext {s : scanner.Scanner} {m n : Nat} (h : m = n) :
    ({ s with rdOffset := m } : scanner.Scanner) = { s with rdOffset := n } := by
  rw [h]

/-- The digits loop of `scanNumber` consumes a digit run followed by the
delimiter, given enough fuel. -/
theorem scanNumLoop_digits (d : Nat) (hd : scanner.isDigit d = false) :
    ∀ (ds : List Nat) (fuel : Nat) (s : scanner.Scanner) (rest : List Nat),
      (∀ c ∈ ds, 48 ≤ c ∧ c ≤ 57) →
      s.Data.drop s.rdOffset = ds ++ d :: rest →
      ds.length + 1 ≤ fuel →
      scanner.scanNumLoop fuel d s =
        .ok { s with rdOffset := s.rdOffset + (ds.length + 1) } := by
  intro ds
  induction ds with
  | nil =>
      intro fuel s rest _ h hfuel
      obtain ⟨f, rfl⟩ : ∃ f, fuel = f + 1 := ⟨fuel - 1, by omega⟩
      rw [List.nil_append] at h
      simp only [scanner.scanNumLoop]
      rw [scanner_peek_cons h]
      dsimp only
      rw [if_pos rfl, scanner_next_cons h]
      rfl
  | cons c cs ihc =>
      intro fuel s rest hdig h hfuel
      obtain ⟨f, rfl⟩ : ∃ f, fuel = f + 1 := ⟨fuel - 1, by omega⟩
      rw [List.cons_append] at h
      have hcb := hdig c (by simp)
      have hcd : c ≠ d := by
        intro heq
        rw [← heq] at hd
        simp [scanner.isDigit] at hd
        omega
      simp only [scanner.scanNumLoop]
      rw [scanner_peek_cons h]
      dsimp only
      rw [if_neg hcd,
        if_pos (by simp [scanner.isDigit]; omega), scanner_next_cons h]
      rw [ihc f (scanner.advance s) rest (fun x hx => hdig x (by simp [hx]))
        (scanner_drop_advance h) (by simp at hfuel ⊢; omega)]
      show Except.ok ({ s with rdOffset := s.rdOffset + 1 + (cs.length + 1) } :
        scanner.Scanner) = _
      exact congrArg Except.ok (scanner_rdOffset_ext
        (by simp only [List.length_cons]; omega))

/-- `scanNumber` on a digit run (no sign) followed by the delimiter. -/
theorem scanNumber_digits (d L : Nat) (hd : scanner.isDigit d = false)
    (hdm : d ≠ 45) (s : scanner.Scanner) (rest : List Nat)
    (h : s.Data.drop s.rdOffset = digitsOf L ++ d :: rest) :
    scanner.scanNumber d s =
      .ok { s with rdOffset := s.rdOffset + ((digitsOf L).length + 1) } := by
  cases hdg : digitsOf L with
  | nil => exact absurd hdg digitsOf_ne_nil
  | cons a t =>
      rw [hdg, List.cons_append] at h
      have hab := digitsOf_digits a (by rw [hdg]; simp)
      have had : a ≠ d := by
        intro heq
        rw [← heq] at hd
        simp [scanner.isDigit] at hd
        omega
      simp only [scanner.scanNumber]
      rw [scanner_consume_neg h (by omega)]
      dsimp only
      rw [scanner_peek_cons h]
      dsimp only
      rw [if_neg had, if_neg (by simp [scanner.isDigit]; omega)]
      by_cases ha48 : a = 48
      case pos =>
        subst ha48
        rw [if_pos rfl, if_neg (by simp)]
        have hL0 : L = 0 := by
          by_contra hL
          have hh := digitsOf_head_ne48 (n := L) (by omega)
          rw [hdg] at hh
          simp at hh
        have ht : t = [] := by
          have h0 := hdg
          rw [hL0, digitsOf_zero] at h0
          injection h0 with h1 h2
          exact h2.symm
        rw [ht, List.nil_append] at h
        rw [scanner_next_cons h]
        rw [scanner_consume_pos (scanner_drop_advance h)]
        dsimp only
        rw [ht]
        show Except.ok ({ s with rdOffset := s.rdOffset + 1 + 1 } : scanner.Scanner) = _
        exact congrArg Except.ok (scanner_rdOffset_ext (by simp))
      case neg =>
        rw [if_neg ha48]
        have hlen : (s.Data.drop s.rdOffset).length = s.Data.length - s.rdOffset :=
          List.length_drop _ _
        rw [h] at hlen
        simp at hlen
        rw [scanNumLoop_digits d hd (a :: t) (s.Data.length - s.rdOffset + 1) s rest
          (by intro x hx; rw [← hdg] at hx; exact digitsOf_digits x hx)
          (by rw [List.cons_append]; exact h)
          (by simp only [List.length_cons]; omega)]

/-- `scanNumber` on a '-' sign, a positive digit run, then the delimiter. -/
theorem scanNumber_neg_digits (d M : Nat) (hd : scanner.isDigit d = false)
    (hM : 0 < M) (s : scanner.Scanner) (rest : List Nat)
    (h : s.Data.drop s.rdOffset = 45 :: (digitsOf M ++ d :: rest)) :
    scanner.scanNumber d s =
      .ok { s with rdOffset := s.rdOffset + ((digitsOf M).length + 2) } := by
  simp only [scanner.scanNumber]
  rw [scanner_consume_pos h]
  dsimp only
  have h1 : (scanner.advance s).Data.drop (scanner.advance s).rdOffset =
      digitsOf M ++ d :: rest := scanner_drop_advance h
  cases hdg : digitsOf M with
  | nil => exact absurd hdg digitsOf_ne_nil
  | cons a t =>
      rw [hdg, List.cons_append] at h1
      have hab := digitsOf_digits a (by rw [hdg]; simp)
      have had : a ≠ d := by
        intro heq
        rw [← heq] at hd
        simp [scanner.isDigit] at hd
        omega
      have ha48 : a ≠ 48 := by
        have hh := digitsOf_head_ne48 hM
        rw [hdg] at hh
        simp at hh
        exact hh
      rw [scanner_peek_cons h1]
      dsimp only
      rw [if_neg had, if_neg (by simp [scanner.isDigit]; omega), if_neg ha48]
      have hlen : ((scanner.advance s).Data.drop (scanner.advance s).rdOffset).length =
          (scanner.advance s).Data.length - (scanner.advance s).rdOffset :=
        List.length_drop _ _
      rw [h1] at hlen
      simp at hlen
      rw [scanNumLoop_digits d hd (a :: t) _ (scanner.advance s) rest
        (by intro x hx; rw [← hdg] at hx; exact digitsOf_digits x hx)
        (by rw [List.cons_append]; exact h1)
        (by simp only [List.length_cons]; simp [scanner.advance] at hlen ⊢; omega)]
      show Except.ok ({ s with
        rdOffset := s.rdOffset + 1 + ((a :: t).length + 1) } : scanner.Scanner) = _
      exact congrArg Except.ok (scanner_rdOffset_ext
        (by simp only [List.length_cons]; omega))

/-- Length of a serialized string. -/
theorem encStr_length (k : List Nat) :
    (encStr k).length = (digitsOf k.length).length + 1 + k.length := by
  unfold encStr
  simp
  omega

/-- `scanStr` on a serialized string: either an error (only the
`strconv.Atoi` range error is reachable here) or success consuming
exactly the encoding, with the string token as `last`. -/
theorem scanStr_enc (k : List Nat) (s : scanner.Scanner) (rest : List Nat)
    (h : s.Data.drop s.rdOffset = encStr k ++ rest)
    (hal : s.offset = s.rdOffset) :
    (∃ e, scanner.scanStr s = .error e) ∨
    (∃ s2, scanner.scanStr s = .ok s2 ∧ s2.Data = s.Data ∧
      s2.rdOffset = s.rdOffset + (encStr k).length ∧ s2.offset = s2.rdOffset ∧
      s2.last.Literal = encStr k) := by
  have hexp : s.Data.drop s.rdOffset = digitsOf k.length ++ 58 :: (k ++ rest) := by
    rw [h]
    unfold encStr
    simp
  have h58 : scanner.isDigit 58 = false := by decide
  cases hdg : digitsOf k.length with
  | nil => exact absurd hdg digitsOf_ne_nil
  | cons a t =>
      have hexp2 : s.Data.drop s.rdOffset = a :: (t ++ 58 :: (k ++ rest)) := by
        rw [hexp, hdg]
        simp
      have hab := digitsOf_digits a (by rw [hdg]; simp)
      simp only [scanner.scanStr]
      rw [scanner_peek_cons hexp2]
      rw [if_neg (by simp [scanner.isDigitO, scanner.isDigit]; omega)]
      rw [scanNumber_digits 58 k.length h58 (by omega) s (k ++ rest) hexp]
      dsimp only
      have hlit : scanner.literal
          { s with rdOffset := s.rdOffset + ((digitsOf k.length).length + 1) } =
          digitsOf k.length ++ [58] := by
        unfold scanner.literal
        dsimp only
        rw [hal]
        rw [Nat.add_sub_cancel_left]
        rw [hexp]
        have hsplit : digitsOf k.length ++ 58 :: (k ++ rest) =
            (digitsOf k.length ++ [58]) ++ (k ++ rest) := by simp
        rw [hsplit]
        exact List.take_left' (by simp)
      rw [hlit, List.dropLast_concat]
      unfold scanner.atoi
      rw [digitsOf_val]
      by_cases hbig : k.length ≤ scanner.maxInt64
      case neg =>
        rw [if_neg hbig]
        exact Or.inl ⟨_, rfl⟩
      case pos =>
      rw [if_pos hbig]
      dsimp only
      have hrem1 : s.Data.drop (s.rdOffset + ((digitsOf k.length).length + 1)) =
          k ++ rest := by
        rw [← List.drop_drop, hexp]
        have hsplit : digitsOf k.length ++ 58 :: (k ++ rest) =
            (digitsOf k.length ++ [58]) ++ (k ++ rest) := by simp
        rw [hsplit]
        exact List.drop_left' (by simp)
      have hlen1 : s.Data.length - (s.rdOffset + ((digitsOf k.length).length + 1)) =
          k.length + rest.length := by
        have := List.length_drop (s.rdOffset + ((digitsOf k.length).length + 1)) s.Data
        rw [hrem1] at this
        simp at this
        omega
      rw [if_neg (by omega)]
      refine Or.inr ⟨_, rfl, rfl, ?_, ?_, ?_⟩
      · show s.rdOffset + ((digitsOf k.length).length + 1) + k.length =
          s.rdOffset + (encStr k).length
        rw [encStr_length]
        omega
      · rfl
      · show scanner.literal { s with
          rdOffset := s.rdOffset + ((digitsOf k.length).length + 1) + k.length } = encStr k
        unfold scanner.literal
        dsimp only
        rw [hal]
        have harith : s.rdOffset + ((digitsOf k.length).length + 1) + k.length -
            s.rdOffset = (encStr k).length := by
          rw [encStr_length]
          omega
        rw [harith, h]
        exact List.take_left' rfl

/-- Every value tree has positive size. -/
theorem sizeB_pos (v : Bencode) : 1 ≤ sizeB v := by
  cases v <;> simp [sizeB]

/-- Scanning a serialized value (and the list/dictionary entry loops):
either the scanner errors, or it succeeds consuming exactly the
encoding; a dictionary loop that succeeds moreover certifies that the
keys it scanned are strictly increasing (above `prev` unless it was the
first).  Proved for every fuel simultaneously by strong induction on the
tree size. -/
theorem scan_enc_spec :
    ∀ N : Nat,
      (∀ v : Bencode, sizeB v ≤ N →
        ∀ (fuel : Nat) (s : scanner.Scanner) (rest : List Nat),
          s.Data.drop s.rdOffset = encB v ++ rest →
          s.offset = s.rdOffset →
          (∃ e, scanner.scan fuel .value s = .error e) ∨
          (∃ s2, scanner.scan fuel .value s = .ok s2 ∧ s2.Data = s.Data ∧
            s2.rdOffset = s.rdOffset + (encB v).length ∧ s2.offset = s2.rdOffset)) ∧
      (∀ xs : BList, sizeBL xs ≤ N →
        ∀ (fuel : Nat) (s : scanner.Scanner) (rest : List Nat),
          s.Data.drop s.rdOffset = encBL xs ++ 101 :: rest →
          s.offset = s.rdOffset →
          (∃ e, scanner.scan fuel .lloop s = .error e) ∨
          (∃ s2, scanner.scan fuel .lloop s = .ok s2 ∧ s2.Data = s.Data ∧
            s2.rdOffset = s.rdOffset + ((encBL xs).length + 1) ∧
            s2.offset = s2.rdOffset)) ∧
      (∀ kvs : BKVs, sizeBD kvs ≤ N →
        ∀ (fuel : Nat) (s : scanner.Scanner) (prev : List Nat) (first : Bool)
          (rest : List Nat),
          s.Data.drop s.rdOffset = encBD kvs ++ 101 :: rest →
          s.offset = s.rdOffset →
          (∃ e, scanner.scan fuel (.dloop prev first) s = .error e) ∨
          (∃ s2, scanner.scan fuel (.dloop prev first) s = .ok s2 ∧
            s2.Data = s.Data ∧
            s2.rdOffset = s.rdOffset + ((encBD kvs).length + 1) ∧
            s2.offset = s2.rdOffset ∧
            (first = true → strictKeys (keysOf kvs) = true) ∧
            (first = false → sortedAbove prev (keysOf kvs) = true))) := by
  intro N
  induction N using Nat.strong_induction_on with
  | _ N IH =>
  refine ⟨?_, ?_, ?_⟩
  · intro v hv fuel s rest h hal
    cases fuel with
    | zero => exact Or.inl ⟨.fuel, rfl⟩
    | succ f =>
        cases v with
        | int n =>
            have h' : s.Data.drop s.rdOffset = 105 :: (encInt n ++ 101 :: rest) := by
              rw [h]
              simp [encB]
            simp only [scanner.scan]
            rw [scanner_peek_cons h']
            dsimp only
            rw [if_neg (by decide), if_neg (by decide), if_pos rfl]
            simp only [scanner.scanInt]
            rw [scanner_consume_pos h']
            dsimp only
            have h2 : (scanner.advance s).Data.drop (scanner.advance s).rdOffset =
                encInt n ++ 101 :: rest := scanner_drop_advance h'
            by_cases hn : n < 0
            case pos =>
              have henc : encInt n = 45 :: digitsOf (-n).toNat := by
                unfold encInt
                rw [if_pos hn]
              rw [henc] at h2
              rw [scanNumber_neg_digits 101 (-n).toNat (by decide) (by omega)
                (scanner.advance s) rest (by rw [h2]; simp)]
              dsimp only
              refine Or.inr ⟨_, rfl, rfl, ?_, rfl⟩
              show s.rdOffset + 1 + ((digitsOf (-n).toNat).length + 2) =
                s.rdOffset + (encB (.int n)).length
              simp [encB, henc]
              omega
            case neg =>
              have henc : encInt n = digitsOf n.toNat := by
                unfold encInt
                rw [if_neg hn]
              rw [henc] at h2
              rw [scanNumber_digits 101 n.toNat (by decide) (by decide)
                (scanner.advance s) rest h2]
              dsimp only
              refine Or.inr ⟨_, rfl, rfl, ?_, rfl⟩
              show s.rdOffset + 1 + ((digitsOf n.toNat).length + 1) =
                s.rdOffset + (encB (.int n)).length
              simp [encB, henc]
              omega
        | str bs =>
            have h' : s.Data.drop s.rdOffset = encStr bs ++ rest := h
            cases hdg : digitsOf bs.length with
            | nil => exact absurd hdg digitsOf_ne_nil
            | cons a t =>
                have hexp2 : s.Data.drop s.rdOffset =
                    a :: (t ++ 58 :: (bs ++ rest)) := by
                  rw [h']
                  unfold encStr
                  rw [hdg]
                  simp
                have hab := digitsOf_digits a (by rw [hdg]; simp)
                simp only [scanner.scan]
                rw [scanner_peek_cons hexp2]
                dsimp only
                rw [if_neg (by omega), if_neg (by omega), if_neg (by omega),
                  if_pos (by simp [scanner.isDigit]; omega)]
                rcases scanStr_enc bs s rest h' hal with ⟨e, he⟩ |
                  ⟨s2, hok, hData, hrd, hoff, _⟩
                · rw [he]
                  exact Or.inl ⟨e, rfl⟩
                · rw [hok]
                  exact Or.inr ⟨s2, rfl, hData, hrd, hoff⟩
        | list xs =>
            have h' : s.Data.drop s.rdOffset = 108 :: (encBL xs ++ 101 :: rest) := by
              rw [h]
              simp [encB]
            simp only [scanner.scan]
            rw [scanner_peek_cons h']
            dsimp only
            rw [if_neg (by decide), if_pos rfl]
            rw [scanner_consume_pos h']
            dsimp only
            have hsz : sizeBL xs ≤ N - 1 ∧ 1 ≤ N := by
              simp only [sizeB] at hv
              omega
            rcases (IH (N - 1) (by omega)).2.1 xs (by omega) f
              (scanner.emit .LIST (scanner.advance s)) rest
              (scanner_drop_advance h') rfl with ⟨e, he⟩ |
              ⟨s2, hok, hData, hrd, hoff⟩
            · rw [he]
              exact Or.inl ⟨e, rfl⟩
            · rw [hok]
              refine Or.inr ⟨s2, rfl, hData, ?_, hoff⟩
              rw [hrd]
              show s.rdOffset + 1 + ((encBL xs).length + 1) =
                s.rdOffset + (encB (.list xs)).length
              simp [encB]
              omega
        | dict kvs =>
            have h' : s.Data.drop s.rdOffset = 100 :: (encBD kvs ++ 101 :: rest) := by
              rw [h]
              simp [encB]
            simp only [scanner.scan]
            rw [scanner_peek_cons h']
            dsimp only
            rw [if_pos rfl]
            rw [scanner_consume_pos h']
            dsimp only
            have hsz : sizeBD kvs ≤ N - 1 ∧ 1 ≤ N := by
              simp only [sizeB] at hv
              omega
            rcases (IH (N - 1) (by omega)).2.2 kvs (by omega) f
              (scanner.emit .DICT (scanner.advance s)) [] true rest
              (scanner_drop_advance h') rfl with ⟨e, he⟩ |
              ⟨s2, hok, hData, hrd, hoff, _, _⟩
            · rw [he]
              exact Or.inl ⟨e, rfl⟩
            · rw [hok]
              refine Or.inr ⟨s2, rfl, hData, ?_, hoff⟩
              rw [hrd]
              show s.rdOffset + 1 + ((encBD kvs).length + 1) =
                s.rdOffset + (encB (.dict kvs)).length
              simp [encB]
              omega
  · intro xs hxs fuel s rest h hal
    cases fuel with
    | zero => exact Or.inl ⟨.fuel, rfl⟩
    | succ f =>
        cases xs with
        | nil =>
            have h' : s.Data.drop s.rdOffset = 101 :: rest := by
              rw [h]
              simp [encBL]
            simp only [scanner.scan]
            rw [scanner_peek_cons h']
            dsimp only
            rw [if_pos rfl, scanner_next_cons h']
            refine Or.inr ⟨_, rfl, rfl, ?_, rfl⟩
            show s.rdOffset + 1 = s.rdOffset + ((encBL .nil).length + 1)
            simp [encBL]
        | cons v xs1 =>
            have h' : s.Data.drop s.rdOffset =
                encB v ++ (encBL xs1 ++ 101 :: rest) := by
              rw [h]
              simp [encBL]
            obtain ⟨c, t, hct, hcd⟩ := encB_head v
            have h'' : s.Data.drop s.rdOffset =
                c :: (t ++ (encBL xs1 ++ 101 :: rest)) := by
              rw [h', hct]
              simp
            simp only [scanner.scan]
            rw [scanner_peek_cons h'']
            dsimp only
            rw [if_neg (by rcases hcd with hc | hc | hc | hc <;> omega)]
            have hsz : sizeB v ≤ N - 1 ∧ sizeBL xs1 ≤ N - 1 ∧ 1 ≤ N := by
              simp only [sizeBL] at hxs
              have hv1 := sizeB_pos v
              omega
            rcases (IH (N - 1) (by omega)).1 v (by omega) f s
              (encBL xs1 ++ 101 :: rest) h' hal with ⟨e, he⟩ |
              ⟨s1, hok, hData, hrd, hoff⟩
            · rw [he]
              exact Or.inl ⟨e, rfl⟩
            · rw [hok]
              dsimp only
              have hrem1 : s1.Data.drop s1.rdOffset = encBL xs1 ++ 101 :: rest := by
                rw [hData, hrd, ← List.drop_drop, h']
                exact List.drop_left' rfl
              rcases (IH (N - 1) (by omega)).2.1 xs1 (by omega) f s1 rest hrem1
                hoff with ⟨e, he⟩ | ⟨s2, hok2, hData2, hrd2, hoff2⟩
              · rw [he]
                exact Or.inl ⟨e, rfl⟩
              · rw [hok2]
                refine Or.inr ⟨s2, rfl, hData2.trans hData, ?_, hoff2⟩
                rw [hrd2, hrd]
                show s.rdOffset + (encB v).length + ((encBL xs1).length + 1) =
                  s.rdOffset + ((encBL (.cons v xs1)).length + 1)
                simp [encBL]
                omega
  · intro kvs hkvs fuel s prev first rest h hal
    cases fuel with
    | zero => exact Or.inl ⟨.fuel, rfl⟩
    | succ f =>
        cases kvs with
        | nil =>
            have h' : s.Data.drop s.rdOffset = 101 :: rest := by
              rw [h]
              simp [encBD]
            simp only [scanner.scan]
            rw [scanner_peek_cons h']
            dsimp only
            rw [if_pos rfl, scanner_next_cons h']
            refine Or.inr ⟨_, rfl, rfl, ?_, rfl, ?_, ?_⟩
            · show s.rdOffset + 1 = s.rdOffset + ((encBD .nil).length + 1)
              simp [encBD]
            · intro _
              rfl
            · intro _
              rfl
        | cons k v kvs1 =>
            have h' : s.Data.drop s.rdOffset =
                encStr k ++ (encB v ++ (encBD kvs1 ++ 101 :: rest)) := by
              rw [h]
              simp [encBD]
            cases hdg : digitsOf k.length with
            | nil => exact absurd hdg digitsOf_ne_nil
            | cons a t =>
                have hexp2 : s.Data.drop s.rdOffset =
                    a :: (t ++ 58 :: (k ++ (encB v ++ (encBD kvs1 ++ 101 :: rest)))) := by
                  rw [h']
                  unfold encStr
                  rw [hdg]
                  simp
                have hab := digitsOf_digits a (by rw [hdg]; simp)
                simp only [scanner.scan]
                rw [scanner_peek_cons hexp2]
                dsimp only
                rw [if_neg (by omega)]
                rcases scanStr_enc k s (encB v ++ (encBD kvs1 ++ 101 :: rest)) h'
                  hal with ⟨e, he⟩ | ⟨s1, hok, hData, hrd, hoff, hlit⟩
                · rw [he]
                  exact Or.inl ⟨e, rfl⟩
                · rw [hok]
                  dsimp only
                  rw [hlit, rawString_encStr]
                  by_cases hord : first = false ∧ scanner.goStrLt prev k = false
                  · rw [if_pos hord]
                    exact Or.inl ⟨_, rfl⟩
                  · rw [if_neg hord]
                    have hsz : sizeB v ≤ N - 1 ∧ sizeBD kvs1 ≤ N - 1 ∧ 1 ≤ N := by
                      simp only [sizeBD] at hkvs
                      have hv1 := sizeB_pos v
                      omega
                    have hrem1 : s1.Data.drop s1.rdOffset =
                        encB v ++ (encBD kvs1 ++ 101 :: rest) := by
                      rw [hData, hrd, ← List.drop_drop, h']
                      exact List.drop_left' rfl
                    rcases (IH (N - 1) (by omega)).1 v (by omega) f s1
                      (encBD kvs1 ++ 101 :: rest) hrem1 hoff with ⟨e, he⟩ |
                      ⟨s2, hok2, hData2, hrd2, hoff2⟩
                    · rw [he]
                      exact Or.inl ⟨e, rfl⟩
                    · rw [hok2]
                      dsimp only
                      have hrem2 : s2.Data.drop s2.rdOffset =
                          encBD kvs1 ++ 101 :: rest := by
                        rw [hData2, hrd2, ← List.drop_drop, hrem1]
                        exact List.drop_left' rfl
                      rcases (IH (N - 1) (by omega)).2.2 kvs1 (by omega) f s2 k
                        false rest hrem2 hoff2 with ⟨e, he⟩ |
                        ⟨s3, hok3, hData3, hrd3, hoff3, _, hsort⟩
                      · rw [he]
                        exact Or.inl ⟨e, rfl⟩
                      · rw [hok3]
                        have hky : sortedAbove k (keysOf kvs1) = true := hsort rfl
                        refine Or.inr ⟨s3, rfl,
                          hData3.trans (hData2.trans hData), ?_, hoff3, ?_, ?_⟩
                        · rw [hrd3, hrd2, hrd]
                          show s.rdOffset + (encStr k).length + (encB v).length +
                              ((encBD kvs1).length + 1) =
                            s.rdOffset + ((encBD (.cons k v kvs1)).length + 1)
                          simp [encBD]
                          omega
                        · intro _
                          show strictKeys (k :: keysOf kvs1) = true
                          simp only [strictKeys]
                          exact hky
                        · intro hf
                          show sortedAbove prev (k :: keysOf kvs1) = true
                          simp only [sortedAbove]
                          have hlt : scanner.goStrLt prev k = true := by
                            rcases Bool.eq_false_or_eq_true (scanner.goStrLt prev k)
                              with hb | hb
                            · exact hb
                            · exact absurd ⟨hf, hb⟩ hord
                          rw [hlt, hky]
                          rfl

/-- A successful scan of a serialized dictionary certifies strictly
increasing keys. -/
theorem scan_dict_sorted (kvs : BKVs) (fuel : Nat) (s2 : scanner.Scanner)
    (hs : scanner.scan fuel .value (scanner.mkScanner (encB (.dict kvs))) = .ok s2) :
    strictKeys (keysOf kvs) = true := by
  cases fuel with
  | zero => simp [scanner.scan] at hs
  | succ f =>
      have h' : (scanner.mkScanner (encB (.dict kvs))).Data.drop
          (scanner.mkScanner (encB (.dict kvs))).rdOffset =
          100 :: (encBD kvs ++ 101 :: []) := by
        show (encB (.dict kvs)).drop 0 = _
        simp [encB]
      simp only [scanner.scan] at hs
      rw [scanner_peek_cons h'] at hs
      dsimp only at hs
      rw [if_pos rfl] at hs
      rw [scanner_consume_pos h'] at hs
      dsimp only at hs
      rcases (scan_enc_spec (sizeBD kvs)).2.2 kvs (le_refl _) f
        (scanner.emit .DICT (scanner.advance (scanner.mkScanner (encB (.dict kvs)))))
        [] true [] (scanner_drop_advance h') rfl with ⟨e, he⟩ |
        ⟨s3, hok3, _, _, _, hstrict, _⟩
      · rw [he] at hs
        simp at hs
      · exact hstrict rfl

/-- C8: the scanner's `Valid` rejects each of the malformed inputs
"", "d", "l", "i", "1", "ie", "1:", "dede", "i01e", "i-0e", rejects
every serialized dictionary whose keys are out of lexicographic order
or duplicated (not strictly increasing), and accepts each of
"de", "le", "i0e", "i1e", "i-1e", "0:", "1:a". -/
theorem c8_bencode_validity :
    (∀ d ∈ [([] : List Nat), [100], [108], [105], [49], [105, 101], [49, 58],
        [100, 101, 100, 101], [105, 48, 49, 101], [105, 45, 48, 101]],
      (scanner.validErr d).isSome = true) ∧
    (∀ kvs : BKVs, strictKeys (keysOf kvs) = false →
      (scanner.validErr (encB (.dict kvs))).isSome = true) ∧
    (∀ d ∈ [[100, 101], [108, 101], [105, 48, 101], [105, 49, 101],
        [105, 45, 49, 101], [48, 58], [49, 58, 97]],
      scanner.validErr d = none) := by
  refine ⟨by decide, ?_, by decide⟩
  intro kvs hbad
  by_contra hns
  have hnone : scanner.validErr (encB (.dict kvs)) = none := by
    cases hv : scanner.validErr (encB (.dict kvs)) with
    | none => rfl
    | some e =>
        rw [hv] at hns
        simp at hns
  unfold scanner.validErr at hnone
  cases hs : scanner.scan ((encB (.dict kvs)).length + 1) .value
      (scanner.mkScanner (encB (.dict kvs))) with
  | error e =>
      rw [hs] at hnone
      simp at hnone
  | ok sfin =>
      have hsort := scan_dict_sorted kvs _ sfin hs
      rw [hsort] at hbad
      simp at hbad

/-- Witness for C8: one rejected input ("dede"), one mis-ordered
dictionary (keys "b" then "a"), one accepted input ("de"). -/
theorem c8_bencode_validity_witness :
    (scanner.validErr [100, 101, 100, 101]).isSome = true ∧
    (scanner.validErr (encB (.dict
      (.cons [98] (.int 0) (.cons [97] (.int 0) .nil))))).isSome = true ∧
    scanner.validErr [100, 101] = none :=
  ⟨c8_bencode_validity.1 [100, 101, 100, 101] (by decide),
   c8_bencode_validity.2.1 (.cons [98] (.int 0) (.cons [97] (.int 0) .nil))
     (by decide),
   c8_bencode_validity.2.2 [100, 101] (by decide)⟩

/-- C3: the claim says a dictionary key matching no struct field is
skipped together with its value and Unmarshal returns without error or
panic.  In the code, the struct branch of `decoder.dict` takes no
action for an unmatched key, so the key's VALUE tokens are never
consumed; on the scanner-valid input "d3:fooi0ee" decoded into a
struct whose only field is `Bar`, the loop's `consume(STRING)` then
fails on the NUMBER token of the orphaned value and
`mustConsume(token.END)` panics with `syntaxPanicMsg`.  (A matching
key, e.g. a field named "foo", decodes cleanly on the same input.) -/
theorem c3_unknown_key_value_not_consumed :
    scanner.Valid [100, 51, 58, 102, 111, 111, 105, 48, 101, 101] = true ∧
    bencode.unmarshalStruct [100, 51, 58, 102, 111, 111, 105, 48, 101, 101]
      { fields := [([66, 97, 114], 0)], names := [([66, 97, 114], 0)] } =
      .error .goPanic :=
  ⟨rfl, rfl⟩
